import Mathlib

/-!
Verification of core properties of the SwiftShaderGL-DirectFB repository:
the GLSL ES limitations validator (`src/OpenGL/compiler/ValidateLimitations.cpp`),
the preprocessor input reader (`src/OpenGL/compiler/preprocessor/Input.cpp`),
the preprocessor directive parser (`DirectiveParser.cpp`), and the Reactor
runtime code generator (`src/Reactor/Reactor.cpp`, `LLVMReactor.cpp`).

Each C++ function relevant to a verified property is shallowly embedded as an
executable Lean definition that mirrors the source control flow; mutable state
(diagnostic sinks, macro tables, the conditional-block stack, the LLVM
instruction stream) is threaded explicitly.
-/

namespace RR

/-- A Reactor SSA value is identified by a numeric id. -/
abbrev Val := Nat

/-- State of one `rr::Variable` (Reactor.cpp): `address` is the stack slot
allocated by `allocate()` (null before materialization), `rvalue` is the
pending SSA value recorded by `storeValue` while no stack slot exists. -/
structure VarState where
  address : Option Nat
  rvalue : Option Val
  deriving DecidableEq, Repr

/-- Instructions emitted into the routine being built (the effect of
`Nucleus::allocateStackVariable`, `Nucleus::createStore`, `Nucleus::createLoad`). -/
inductive RInstr where
  | alloca (slot : Nat)
  | store (v : Val) (slot : Nat)
  | load (slot : Nat)
  deriving DecidableEq, Repr

/-- The variable together with the instruction stream emitted so far and a
fresh-slot counter. -/
structure EmitState where
  var : VarState
  instrs : List RInstr
  nextSlot : Nat
  deriving DecidableEq, Repr

/-- `rr::Variable::materialize` (Reactor.cpp:73-86): if no address yet,
allocate a stack slot; if a pending rvalue exists, store it to the new slot
and clear it. -/
def materialize (s : EmitState) : EmitState :=
  match s.var.address with
  | some _ => s
  | none =>
    let a := s.nextSlot
    let s1 : EmitState :=
      { var := { s.var with address := some a },
        instrs := s.instrs ++ [.alloca a],
        nextSlot := a + 1 }
    match s1.var.rvalue with
    | some v =>
      { s1 with instrs := s1.instrs ++ [.store v a], var := { s1.var with rvalue := none } }
    | none => s1

/-- `rr::Variable::storeValue` (Reactor.cpp:103-113): with an address, emit a
store; otherwise record the value as the pending rvalue without emitting. -/
def storeValue (s : EmitState) (v : Val) : EmitState :=
  match s.var.address with
  | some a => { s with instrs := s.instrs ++ [.store v a] }
  | none => { s with var := { s.var with rvalue := some v } }

/-- Result of `rr::Variable::loadValue`: either the pending SSA value is
returned directly, or a load from the materialized slot is emitted. -/
inductive LoadResult where
  | pending (v : Val)
  | fromMemory (slot : Nat)
  deriving DecidableEq, Repr

/-- `rr::Variable::loadValue` (Reactor.cpp:88-101): return the pending rvalue
if present; otherwise materialize when needed and emit a load. -/
def loadValue (s : EmitState) : LoadResult × EmitState :=
  match s.var.rvalue with
  | some v => (.pending v, s)
  | none =>
    let s1 := match s.var.address with
      | none => materialize s
      | some _ => s
    match s1.var.address with
    | some a => (.fromMemory a, { s1 with instrs := s1.instrs ++ [.load a] })
    | none => (.fromMemory 0, s1)

/-- Operations on the variable: a store through it, a load, taking its base
address (`getBaseAddress`), and the basic-block boundaries of LLVMReactor.cpp
(`Nucleus::createBr`, `Nucleus::createCondBr`, `Nucleus::setInsertBlock`),
each of which calls `Variable::materializeAll`. -/
inductive ROp where
  | opStore (v : Val)
  | opLoad
  | opGetBaseAddress
  | opCreateBr
  | opCreateCondBr
  | opSetInsertBlock
  deriving DecidableEq, Repr

/-- One step of the emission state machine. -/
def stepR (s : EmitState) : ROp → EmitState
  | .opStore v => storeValue s v
  | .opLoad => (loadValue s).2
  | .opGetBaseAddress => materialize s
  | .opCreateBr => materialize s
  | .opCreateCondBr => materialize s
  | .opSetInsertBlock => materialize s

/-- Whether an operation is an address-taking or a basic-block boundary. -/
def isMaterializingTrigger : ROp → Prop
  | .opGetBaseAddress => True
  | .opCreateBr => True
  | .opCreateCondBr => True
  | .opSetInsertBlock => True
  | _ => False

end RR

namespace RR

/-- `Nucleus::createShuffleVector` for 4-lane vectors (LLVMReactor.cpp):
LLVM `shufflevector` semantics — output lane `i` is lane `select i` of the
first operand when `select i < 4`, else lane `select i - 4` of the second.
The `% 4` makes the out-of-range case total; all uses below stay in range. -/
def createShuffleVector {α : Type} (lhs rhs : Fin 4 → α) (select : Fin 4 → Nat) :
    Fin 4 → α := fun i =>
  if h : select i < 4 then lhs ⟨select i, h⟩
  else rhs ⟨(select i - 4) % 4, Nat.mod_lt _ (by norm_num)⟩

/-- `createSwizzle4` (Reactor.cpp:159-171): two bits per output lane are taken
from the 16-bit selector, lane 0 from the most-significant nibble. -/
def createSwizzle4 {α : Type} (val : Fin 4 → α) (select : Nat) : Fin 4 → α :=
  createShuffleVector val val fun i => (select >>> (12 - 4 * i.val)) &&& 0x03

/-- `Swizzle(RValue<Float4>, uint16_t)` (Reactor.cpp:1852-1855) forwards to
`createSwizzle4`. -/
def Swizzle {α : Type} (x : Fin 4 → α) (select : Nat) : Fin 4 → α :=
  createSwizzle4 x select

/-- Bits `k` and `k+1` of a mask being set makes `&&& 3` after `>>> k`
insensitive to first applying the mask. -/
theorem and_mask_shift_and_three (s mask k : Nat)
    (hk : Nat.testBit mask k = true) (hk1 : Nat.testBit mask (k + 1) = true) :
    (s &&& mask) >>> k &&& 3 = s >>> k &&& 3 := by
  apply Nat.eq_of_testBit_eq
  intro i
  simp only [Nat.testBit_and, Nat.testBit_shiftRight]
  rcases Nat.lt_or_ge i 2 with h | h
  · interval_cases i
    · simp [hk]
    · simp [hk1, Nat.add_comm 1 k]
  · have h3 : (3 : Nat).testBit i = false :=
      Nat.testBit_eq_false_of_lt (by
        calc (3 : Nat) < 4 := by norm_num
        _ = 2 ^ 2 := by norm_num
        _ ≤ 2 ^ i := Nat.pow_le_pow_right (by norm_num) h)
    simp [h3]

end RR

/-- C8: the swizzle of a 4-lane vector by a 16-bit selector puts input lane
`(s >>> (12 - 4*i)) &&& 3` into output lane `i` (lane 0 reads the
most-significant nibble), and only the low two bits of each nibble matter:
masking the selector with 0x3333 leaves the result unchanged. -/
theorem c8_swizzle_lane_selection {α : Type} (v : Fin 4 → α) (s : Nat) (i : Fin 4)
    (_hs : s < 65536) :
    RR.Swizzle v s i = v ⟨(s >>> (12 - 4 * i.val)) &&& 0x03,
      Nat.lt_of_le_of_lt Nat.and_le_right (by norm_num)⟩ ∧
    RR.Swizzle v s = RR.Swizzle v (s &&& 0x3333) := by
  constructor
  · have hlt : (s >>> (12 - 4 * i.val)) &&& 0x03 < 4 :=
      Nat.lt_of_le_of_lt Nat.and_le_right (by norm_num)
    simp [RR.Swizzle, RR.createSwizzle4, RR.createShuffleVector, hlt]
  · funext j
    have h1 : (s >>> (12 - 4 * j.val)) &&& 0x03 < 4 :=
      Nat.lt_of_le_of_lt Nat.and_le_right (by norm_num)
    have h2 : ((s &&& 0x3333) >>> (12 - 4 * j.val)) &&& 0x03 < 4 :=
      Nat.lt_of_le_of_lt Nat.and_le_right (by norm_num)
    have hmask : ((s &&& 0x3333) >>> (12 - 4 * j.val)) &&& 0x03 =
        (s >>> (12 - 4 * j.val)) &&& 0x03 := by
      apply RR.and_mask_shift_and_three
      · fin_cases j <;> decide
      · fin_cases j <;> decide
    simp [RR.Swizzle, RR.createSwizzle4, RR.createShuffleVector, h1, h2, hmask]

/-- Witness for C8 at a concrete vector and selector: `Swizzle [10,20,30,40]
0x0033` yields lane 2 = input lane 3. -/
theorem c8_witness :
    (0x0033 < 65536 ∧
      RR.Swizzle (fun i : Fin 4 => 10 * (i.val + 1)) 0x0033 2 =
        (fun i : Fin 4 => 10 * (i.val + 1))
          ⟨(0x0033 >>> (12 - 4 * (2 : Fin 4).val)) &&& 0x03,
            Nat.lt_of_le_of_lt Nat.and_le_right (by norm_num)⟩) :=
  ⟨by norm_num,
    (c8_swizzle_lane_selection (fun i : Fin 4 => 10 * (i.val + 1))
      0x0033 2 (by norm_num)).1⟩

namespace GLC

/-- `TBasicType` (BaseTypes.h:46-87), restricted to the members the
limitations validator distinguishes. -/
inductive TBasicType where
  | EbtVoid | EbtFloat | EbtInt | EbtUInt | EbtBool | EbtSampler2D | EbtStruct
  deriving DecidableEq, Repr

/-- `IsInteger` (BaseTypes.h:324-327). -/
def IsInteger (t : TBasicType) : Bool := t = .EbtInt || t = .EbtUInt

/-- `getBasicString` (BaseTypes.h:109-...), for the diagnostic text. -/
def getBasicString : TBasicType → String
  | .EbtVoid => "void"
  | .EbtFloat => "float"
  | .EbtInt => "int"
  | .EbtUInt => "uint"
  | .EbtBool => "bool"
  | .EbtSampler2D => "sampler2D"
  | .EbtStruct => "structure"

/-- `TQualifier` (BaseTypes.h:340-...), restricted to the members used here. -/
inductive TQualifier where
  | EvqTemporary | EvqGlobal | EvqConstExpr | EvqAttribute | EvqUniform
  | EvqIn | EvqOut | EvqInOut
  deriving DecidableEq, Repr

/-- The `TOperator` members the limitations validator inspects. -/
inductive TOperator where
  | EOpNull | EOpDeclaration | EOpInitialize
  | EOpIndexDirect | EOpIndexIndirect
  | EOpEqual | EOpNotEqual | EOpLessThan | EOpGreaterThan
  | EOpLessThanEqual | EOpGreaterThanEqual
  | EOpPostIncrement | EOpPostDecrement | EOpPreIncrement | EOpPreDecrement
  | EOpAddAssign | EOpSubAssign | EOpAssign
  | EOpAdd | EOpSub | EOpMul | EOpFunctionCall | EOpNegative
  deriving DecidableEq, Repr

/-- Diagnostic operator text used in error messages. -/
def getOperatorString : TOperator → String
  | .EOpAssign => "="
  | .EOpAdd => "+"
  | .EOpSub => "-"
  | .EOpMul => "*"
  | _ => "op"

/-- The type carried by a typed AST node: basic type, qualifier and vector
size 1-4 (spec §3; the full `TType` of Types.h is not part of src). -/
structure TType where
  basicType : TBasicType
  qualifier : TQualifier
  primarySize : Nat
  deriving DecidableEq, Repr

/-- `TType::isScalarInt` (Types.h, not in src): scalar and of integer basic
type, per spec §3's vector size 1-4 and `IsInteger`. -/
def TType.isScalarInt (t : TType) : Bool :=
  t.primarySize = 1 && IsInteger t.basicType

/-- The intermediate AST (`TIntermSymbol`, `TIntermConstantUnion`,
`TIntermBinary`, `TIntermUnary`, `TIntermAggregate`) as a sum type. -/
inductive TIntermNode where
  | symbol (id : Nat) (ttype : TType) (name : String)
  | constantUnion (ttype : TType)
  | binary (op : TOperator) (ttype : TType) (left right : TIntermNode)
  | unary (op : TOperator) (ttype : TType) (operand : TIntermNode)
  | aggregate (op : TOperator) (seq : List TIntermNode)
  deriving Repr

/-- `getAsSymbolNode`: the symbol's id, type and name. -/
def getAsSymbolNode : TIntermNode → Option (Nat × TType × String)
  | .symbol id ty nm => some (id, ty, nm)
  | _ => none

/-- `getAsConstantUnion() != nullptr`. -/
def isConstantUnion : TIntermNode → Bool
  | .constantUnion _ => true
  | _ => false

/-- `getAsBinaryNode`: operator, type, left and right children. -/
def getAsBinaryNode : TIntermNode → Option (TOperator × TType × TIntermNode × TIntermNode)
  | .binary op ty l r => some (op, ty, l, r)
  | _ => none

/-- `getAsUnaryNode`: operator, type and the operand. -/
def getAsUnaryNode : TIntermNode → Option (TOperator × TType × TIntermNode)
  | .unary op ty o => some (op, ty, o)
  | _ => none

/-- `getAsAggregate`: operator and the sequence. -/
def getAsAggregate : TIntermNode → Option (TOperator × List TIntermNode)
  | .aggregate op seq => some (op, seq)
  | _ => none

/-- The node's type; aggregates default to a temporary void type. -/
def getTType : TIntermNode → TType
  | .symbol _ ty _ => ty
  | .constantUnion ty => ty
  | .binary _ ty _ _ => ty
  | .unary _ ty _ => ty
  | .aggregate _ _ => ⟨.EbtVoid, .EvqTemporary, 1⟩

/-- `TLoopType`. -/
inductive TLoopType where
  | ELoopFor | ELoopWhile | ELoopDoWhile
  deriving DecidableEq, Repr

/-- `TIntermLoop`'s header fields (the body is traversed separately and does
not participate in header validation). -/
structure TIntermLoop where
  ltype : TLoopType
  init : Option TIntermNode
  cond : Option TIntermNode
  expr : Option TIntermNode

/-- One diagnostic written to the `TInfoSink` by
`ValidateLimitations::error` (reason and offending token). -/
structure ErrMsg where
  reason : String
  token : String
  deriving DecidableEq, Repr

/-- `ValidateLimitations::isConstExpr` (ValidateLimitations.cpp:489-494). -/
def isConstExpr (n : TIntermNode) : Bool := isConstantUnion n

/-- `ValidateLimitations::validateLoopType` (ValidateLimitations.cpp:211-220). -/
def validateLoopType (l : TIntermLoop) : Bool × List ErrMsg :=
  if l.ltype = .ELoopFor then (true, [])
  else (false, [⟨"This type of loop is not allowed",
    if l.ltype = .ELoopWhile then "while" else "do"⟩])

/-- `ValidateLimitations::validateForLoopInit`
(ValidateLimitations.cpp:238-296), on the loop's init node; returns the loop
index id on success. -/
def validateForLoopInit (initOpt : Option TIntermNode) : Option Nat × List ErrMsg :=
  match initOpt with
  | none => (none, [⟨"Missing init declaration", "for"⟩])
  | some init =>
    match getAsAggregate init with
    | none => (none, [⟨"Invalid init declaration", "for"⟩])
    | some (op, declSeq) =>
      if op ≠ .EOpDeclaration then (none, [⟨"Invalid init declaration", "for"⟩])
      else
        match declSeq with
        | [d] =>
          match getAsBinaryNode d with
          | none => (none, [⟨"Invalid init declaration", "for"⟩])
          | some (bop, _, left, right) =>
            if bop ≠ .EOpInitialize then (none, [⟨"Invalid init declaration", "for"⟩])
            else
              match getAsSymbolNode left with
              | none => (none, [⟨"Invalid init declaration", "for"⟩])
              | some (id, ty, nm) =>
                if ¬(IsInteger ty.basicType || ty.basicType = .EbtFloat) then
                  (none, [⟨"Invalid type for loop index", getBasicString ty.basicType⟩])
                else if ¬ isConstExpr right then
                  (none, [⟨"Loop index cannot be initialized with non-constant expression", nm⟩])
                else (some id, [])
        | _ => (none, [⟨"Invalid init declaration", "for"⟩])

/-- Whether the operator is one of the six relational operators accepted by
`validateForLoopCond`. -/
def isRelationalOp (op : TOperator) : Bool :=
  op = .EOpEqual || op = .EOpNotEqual || op = .EOpLessThan ||
  op = .EOpGreaterThan || op = .EOpLessThanEqual || op = .EOpGreaterThanEqual

/-- `ValidateLimitations::validateForLoopCond`
(ValidateLimitations.cpp:298-353). An invalid relational operator reports an
error but does not abort the remaining checks (the source `break`s instead
of returning). -/
def validateForLoopCond (condOpt : Option TIntermNode) (indexId : Nat) :
    Bool × List ErrMsg :=
  match condOpt with
  | none => (false, [⟨"Missing condition", "for"⟩])
  | some cond =>
    match getAsBinaryNode cond with
    | none => (false, [⟨"Invalid condition", "for"⟩])
    | some (op, _, left, right) =>
      match getAsSymbolNode left with
      | none => (false, [⟨"Invalid condition", "for"⟩])
      | some (id, _, nm) =>
        if id ≠ indexId then (false, [⟨"Expected loop index", nm⟩])
        else
          let relErr : List ErrMsg :=
            if isRelationalOp op then []
            else [⟨"Invalid relational operator", getOperatorString op⟩]
          if ¬ isConstExpr right then
            (false, relErr ++
              [⟨"Loop index cannot be compared with non-constant expression", nm⟩])
          else (true, relErr)

/-- Whether the operator is one of the six increment operators accepted by
`validateForLoopExpr`. -/
def isLoopIncrementOp (op : TOperator) : Bool :=
  op = .EOpPostIncrement || op = .EOpPostDecrement ||
  op = .EOpPreIncrement || op = .EOpPreDecrement ||
  op = .EOpAddAssign || op = .EOpSubAssign

/-- `ValidateLimitations::validateForLoopExpr`
(ValidateLimitations.cpp:355-430). -/
def validateForLoopExpr (exprOpt : Option TIntermNode) (indexId : Nat) :
    Bool × List ErrMsg :=
  match exprOpt with
  | none => (false, [⟨"Missing expression", "for"⟩])
  | some expr =>
    let opSym : TOperator × Option (Nat × TType × String) :=
      match getAsUnaryNode expr with
      | some (uop, _, operand) => (uop, getAsSymbolNode operand)
      | none =>
        match getAsBinaryNode expr with
        | some (bop, _, left, _) => (bop, getAsSymbolNode left)
        | none => (.EOpNull, none)
    match opSym.2 with
    | none => (false, [⟨"Invalid expression", "for"⟩])
    | some (id, _, nm) =>
      if id ≠ indexId then (false, [⟨"Expected loop index", nm⟩])
      else if ¬ isLoopIncrementOp opSym.1 then
        (false, [⟨"Invalid operator", getOperatorString opSym.1⟩])
      else
        match getAsUnaryNode expr with
        | some _ => (true, [])
        | none =>
          match getAsBinaryNode expr with
          | some (_, _, _, right) =>
            if ¬ isConstExpr right then
              (false, [⟨"Loop index cannot be modified by non-constant expression", nm⟩])
            else (true, [])
          | none => (true, [])

/-- `ValidateLimitations::visitLoop`'s validation phase
(ValidateLimitations.cpp:170-179 with `validateForLoopHeader`,
222-236): loop type, then init, condition and iteration expression in order,
stopping at the first failed stage. -/
def validateLoop (l : TIntermLoop) : Bool × List ErrMsg :=
  let (ok1, e1) := validateLoopType l
  if ¬ ok1 then (false, e1)
  else
    match validateForLoopInit l.init with
    | (none, e2) => (false, e1 ++ e2)
    | (some id, e2) =>
      let (ok3, e3) := validateForLoopCond l.cond id
      if ¬ ok3 then (false, e1 ++ e2 ++ e3)
      else
        let (ok4, e4) := validateForLoopExpr l.expr id
        (ok4, e1 ++ e2 ++ e3 ++ e4)

/-- The loop-init form accepted per the specification (claim C1), written
from the spec's words: `T idx = C` declaring exactly one index of type int,
uint or float initialized with a constant expression. Returns the index id. -/
def specGoodInit : Option TIntermNode → Option Nat
  | some (.aggregate op [.binary bop _ (.symbol id ty _) rhs]) =>
    if op = .EOpDeclaration ∧ bop = .EOpInitialize ∧
        (ty.basicType = .EbtInt ∨ ty.basicType = .EbtUInt ∨ ty.basicType = .EbtFloat) ∧
        isConstantUnion rhs then some id else none
  | _ => none

/-- The loop condition form accepted per the specification (claim C1):
`idx ⊙ C'` with the index on the left and `⊙` one of the six relational
operators. -/
def specGoodCond (condOpt : Option TIntermNode) (indexId : Nat) : Bool :=
  match condOpt with
  | some (.binary op _ (.symbol id _ _) rhs) =>
    id = indexId && isRelationalOp op && isConstantUnion rhs
  | _ => false

/-- The iteration expression form accepted per the specification (claim C1):
`++idx`, `--idx`, `idx++`, `idx--`, `idx += C`, `idx -= C`. -/
def specGoodExpr (exprOpt : Option TIntermNode) (indexId : Nat) : Bool :=
  match exprOpt with
  | some (.unary op _ (.symbol id _ _)) =>
    id = indexId &&
    (op = .EOpPostIncrement || op = .EOpPostDecrement ||
      op = .EOpPreIncrement || op = .EOpPreDecrement)
  | some (.binary op _ (.symbol id _ _) rhs) =>
    id = indexId && (op = .EOpAddAssign || op = .EOpSubAssign) && isConstantUnion rhs
  | _ => false

/-- The loop form accepted per the specification (claim C1). -/
def specAcceptedForLoop (l : TIntermLoop) : Bool :=
  l.ltype = .ELoopFor &&
  (match specGoodInit l.init with
   | none => false
   | some id => specGoodCond l.cond id && specGoodExpr l.expr id)

/-- The well-formedness invariant asserted by `validateForLoopExpr`'s
`ASSERT`s: increment/decrement operators occur only on unary nodes,
compound assignments only on binary nodes. The loop's iteration expression
is the only node those asserts inspect. -/
def exprOpsWF : Option TIntermNode → Bool
  | some (.unary op _ _) => ¬(op = .EOpAddAssign ∨ op = .EOpSubAssign)
  | some (.binary op _ _ _) =>
    ¬(op = .EOpPostIncrement ∨ op = .EOpPostDecrement ∨
      op = .EOpPreIncrement ∨ op = .EOpPreDecrement)
  | _ => true

/-- The iteration-expression instance of `exprOpsWF` for a whole loop. -/
def exprOpsWellFormed (l : TIntermLoop) : Bool := exprOpsWF l.expr

end GLC

/-- C9: for an unmaterialized Reactor variable, every store — the first into
a fresh variable or an overwrite of an earlier pending value — records the
stored value as the pending rvalue, leaves the variable unmaterialized, and
emits no store instruction; a load right after such a store returns exactly
the value just stored; a load with a pending value returns that value with no
emission; and if any operation extends the instruction stream at all, it is
an address-taking or a basic-block boundary, and it emits exactly the
stack-slot allocation followed by the flush of the pending value. -/
theorem c9_unmaterialized_store_load_materialize
    (s : RR.EmitState) (haddr : s.var.address = none) :
    (∀ w : RR.Val,
      RR.storeValue s w = { s with var := { s.var with rvalue := some w } } ∧
      (RR.storeValue s w).instrs = s.instrs) ∧
    (∀ w : RR.Val,
      RR.loadValue (RR.storeValue s w) = (.pending w, RR.storeValue s w)) ∧
    (∀ v : RR.Val, s.var.rvalue = some v → RR.loadValue s = (.pending v, s)) ∧
    (∀ (v : RR.Val) (op : RR.ROp), s.var.rvalue = some v →
      (RR.stepR s op).instrs ≠ s.instrs →
      RR.isMaterializingTrigger op ∧
      (RR.stepR s op).instrs = s.instrs ++ [.alloca s.nextSlot, .store v s.nextSlot] ∧
      (RR.stepR s op).var.address = some s.nextSlot ∧
      (RR.stepR s op).var.rvalue = none) := by
  refine ⟨?_, ?_, ?_, ?_⟩
  · intro w
    refine ⟨?_, ?_⟩
    · simp [RR.storeValue, haddr]
    · simp [RR.storeValue, haddr]
  · intro w
    simp [RR.storeValue, haddr, RR.loadValue]
  · intro v hrv
    simp [RR.loadValue, hrv]
  · intro v op hrv hne
    cases op with
    | opStore w =>
      exfalso; apply hne
      simp [RR.stepR, RR.storeValue, haddr]
    | opLoad =>
      exfalso; apply hne
      simp [RR.stepR, RR.loadValue, hrv]
    | opGetBaseAddress =>
      refine ⟨trivial, ?_⟩
      simp [RR.stepR, RR.materialize, haddr, hrv]
    | opCreateBr =>
      refine ⟨trivial, ?_⟩
      simp [RR.stepR, RR.materialize, haddr, hrv]
    | opCreateCondBr =>
      refine ⟨trivial, ?_⟩
      simp [RR.stepR, RR.materialize, haddr, hrv]
    | opSetInsertBlock =>
      refine ⟨trivial, ?_⟩
      simp [RR.stepR, RR.materialize, haddr, hrv]

/-- Witness for C9 at concrete states: a first store of 7 into a fresh
variable (no slot, no pending value) records 7 as pending without emitting, a
load then returns 7, and a conditional branch on the resulting state emits the
allocation and the flush of 7. -/
theorem c9_witness :
    (⟨⟨none, none⟩, [], 0⟩ : RR.EmitState).var.address = none ∧
    RR.storeValue ⟨⟨none, none⟩, [], 0⟩ 7 = ⟨⟨none, some 7⟩, [], 0⟩ ∧
    (RR.storeValue ⟨⟨none, none⟩, [], 0⟩ 7).instrs = [] ∧
    RR.loadValue (RR.storeValue ⟨⟨none, none⟩, [], 0⟩ 7) =
      (.pending 7, RR.storeValue ⟨⟨none, none⟩, [], 0⟩ 7) ∧
    RR.loadValue ⟨⟨none, some 7⟩, [], 0⟩ = (.pending 7, ⟨⟨none, some 7⟩, [], 0⟩) ∧
    RR.isMaterializingTrigger RR.ROp.opCreateCondBr ∧
    (RR.stepR ⟨⟨none, some 7⟩, [], 0⟩ .opCreateCondBr).instrs =
      [] ++ [.alloca 0, .store 7 0] ∧
    (RR.stepR ⟨⟨none, some 7⟩, [], 0⟩ .opCreateCondBr).var.address = some 0 ∧
    (RR.stepR ⟨⟨none, some 7⟩, [], 0⟩ .opCreateCondBr).var.rvalue = none := by
  have h0 := c9_unmaterialized_store_load_materialize ⟨⟨none, none⟩, [], 0⟩ rfl
  have h1 := c9_unmaterialized_store_load_materialize ⟨⟨none, some 7⟩, [], 0⟩ rfl
  have hm := h1.2.2.2 7 .opCreateCondBr rfl (by decide)
  exact ⟨rfl, (h0.1 7).1, (h0.1 7).2, h0.2.1 7, h1.2.2.1 7 rfl, hm.1, hm.2.1,
    hm.2.2.1, hm.2.2.2⟩

namespace GLC

/-- Stage lemma: `validateForLoopInit` succeeds with no error exactly on the
spec-accepted init form, and returns the same index id. -/
theorem validateForLoopInit_spec (o : Option TIntermNode) :
    (validateForLoopInit o).1 = specGoodInit o ∧
    ((validateForLoopInit o).2 = [] ↔ (specGoodInit o).isSome) := by
  rcases o with _ | n
  · simp [validateForLoopInit, specGoodInit]
  rcases n with ⟨id, ty, nm⟩ | ty | ⟨op, ty, l, r⟩ | ⟨op, ty, x⟩ | ⟨op, seq⟩
  · simp [validateForLoopInit, specGoodInit, getAsAggregate]
  · simp [validateForLoopInit, specGoodInit, getAsAggregate]
  · simp [validateForLoopInit, specGoodInit, getAsAggregate]
  · simp [validateForLoopInit, specGoodInit, getAsAggregate]
  rcases seq with _ | ⟨d, rest⟩
  · simp [validateForLoopInit, specGoodInit, getAsAggregate]
  rcases rest with _ | ⟨e, rest2⟩
  case cons.cons =>
    simp [validateForLoopInit, specGoodInit, getAsAggregate]
  rcases d with ⟨id, ty, nm⟩ | ty | ⟨bop, bty, left, rhs⟩ | ⟨uop, uty, x⟩ | ⟨aop, aseq⟩
  · simp [validateForLoopInit, specGoodInit, getAsAggregate, getAsBinaryNode]
  · simp [validateForLoopInit, specGoodInit, getAsAggregate, getAsBinaryNode]
  case cons.nil.binary =>
    rcases left with ⟨lid, sty, lnm⟩ | lty | ⟨lop, l2, ll, lr⟩ | ⟨lop, l2, lx⟩ | ⟨lop, lseq⟩
    case symbol =>
      by_cases hop : op = .EOpDeclaration
      · subst hop
        by_cases hbop : bop = .EOpInitialize
        · subst hbop
          cases hb : sty.basicType <;>
            rcases rhs with ⟨_, _, _⟩ | _ | ⟨_, _, _, _⟩ | ⟨_, _, _⟩ | ⟨_, _⟩ <;>
            simp_all [validateForLoopInit, specGoodInit, getAsAggregate, getAsBinaryNode,
              getAsSymbolNode, IsInteger, isConstExpr, isConstantUnion]
        · simp_all [validateForLoopInit, specGoodInit, getAsAggregate, getAsBinaryNode,
            getAsSymbolNode]
      · simp_all [validateForLoopInit, specGoodInit, getAsAggregate, getAsBinaryNode,
          getAsSymbolNode]
    all_goals
      by_cases hop : op = .EOpDeclaration <;>
        by_cases hbop : bop = .EOpInitialize <;>
        simp_all [validateForLoopInit, specGoodInit, getAsAggregate, getAsBinaryNode,
          getAsSymbolNode]
  · simp [validateForLoopInit, specGoodInit, getAsAggregate, getAsBinaryNode]
  · simp [validateForLoopInit, specGoodInit, getAsAggregate, getAsBinaryNode]

end GLC

namespace GLC

/-- Stage lemma: `validateForLoopCond` reports no error exactly on the
spec-accepted condition form, and then also returns true. -/
theorem validateForLoopCond_spec (o : Option TIntermNode) (indexId : Nat) :
    ((validateForLoopCond o indexId).2 = [] ↔ specGoodCond o indexId = true) ∧
    ((validateForLoopCond o indexId).2 = [] → (validateForLoopCond o indexId).1 = true) := by
  rcases o with _ | n
  · simp [validateForLoopCond, specGoodCond]
  rcases n with ⟨id, ty, nm⟩ | ty | ⟨op, ty, left, right⟩ | ⟨op, ty, x⟩ | ⟨op, seq⟩
  · simp [validateForLoopCond, specGoodCond, getAsBinaryNode]
  · simp [validateForLoopCond, specGoodCond, getAsBinaryNode]
  case binary =>
    rcases left with ⟨lid, sty, lnm⟩ | lty | ⟨lop, l2, ll, lr⟩ | ⟨lop, l2, lx⟩ | ⟨lop, lseq⟩
    case symbol =>
      by_cases hid : lid = indexId
      · subst hid
        by_cases hrel : isRelationalOp op = true <;>
          rcases right with ⟨_, _, _⟩ | _ | ⟨_, _, _, _⟩ | ⟨_, _, _⟩ | ⟨_, _⟩ <;>
          simp_all [validateForLoopCond, specGoodCond, getAsBinaryNode, getAsSymbolNode,
            isConstExpr, isConstantUnion]
      · simp_all [validateForLoopCond, specGoodCond, getAsBinaryNode, getAsSymbolNode]
    all_goals
      simp [validateForLoopCond, specGoodCond, getAsBinaryNode, getAsSymbolNode]
  · simp [validateForLoopCond, specGoodCond, getAsBinaryNode]
  · simp [validateForLoopCond, specGoodCond, getAsBinaryNode]

/-- Stage lemma: under the source's ASSERT well-formedness invariant,
`validateForLoopExpr` reports no error exactly on the spec-accepted iteration
expression form, and then also returns true. -/
theorem validateForLoopExpr_spec (o : Option TIntermNode) (indexId : Nat)
    (hwf : exprOpsWF o = true) :
    ((validateForLoopExpr o indexId).2 = [] ↔ specGoodExpr o indexId = true) ∧
    ((validateForLoopExpr o indexId).2 = [] → (validateForLoopExpr o indexId).1 = true) := by
  rcases o with _ | n
  · simp [validateForLoopExpr, specGoodExpr]
  rcases n with ⟨id, ty, nm⟩ | ty | ⟨op, ty, left, right⟩ | ⟨op, ty, x⟩ | ⟨op, seq⟩
  · simp [validateForLoopExpr, specGoodExpr, getAsUnaryNode, getAsBinaryNode]
  · simp [validateForLoopExpr, specGoodExpr, getAsUnaryNode, getAsBinaryNode]
  case binary =>
    rcases left with ⟨lid, sty, lnm⟩ | lty | ⟨lop, l2, ll, lr⟩ | ⟨lop, l2, lx⟩ | ⟨lop, lseq⟩
    case symbol =>
      by_cases hid : lid = indexId
      · subst hid
        cases op <;>
          rcases right with ⟨_, _, _⟩ | _ | ⟨_, _, _, _⟩ | ⟨_, _, _⟩ | ⟨_, _⟩ <;>
          simp_all [validateForLoopExpr, specGoodExpr, getAsUnaryNode, getAsBinaryNode,
            getAsSymbolNode, isLoopIncrementOp, isConstExpr, isConstantUnion, exprOpsWF]
      · simp_all [validateForLoopExpr, specGoodExpr, getAsUnaryNode, getAsBinaryNode,
          getAsSymbolNode]
    all_goals
      simp [validateForLoopExpr, specGoodExpr, getAsUnaryNode, getAsBinaryNode,
        getAsSymbolNode]
  case unary =>
    rcases x with ⟨xid, xty, xnm⟩ | xty | ⟨xop, x2, xl, xr⟩ | ⟨xop, x2, xx⟩ | ⟨xop, xseq⟩
    case symbol =>
      by_cases hid : xid = indexId
      · subst hid
        cases op <;>
          simp_all [validateForLoopExpr, specGoodExpr, getAsUnaryNode, getAsBinaryNode,
            getAsSymbolNode, isLoopIncrementOp, exprOpsWF]
      · simp_all [validateForLoopExpr, specGoodExpr, getAsUnaryNode, getAsBinaryNode,
          getAsSymbolNode]
    all_goals
      simp [validateForLoopExpr, specGoodExpr, getAsUnaryNode, getAsBinaryNode,
        getAsSymbolNode]
  · simp [validateForLoopExpr, specGoodExpr, getAsUnaryNode, getAsBinaryNode]

end GLC

/-- C1: under the AST well-formedness invariant asserted by the validator,
a loop is validated without any error being reported on the diagnostics sink
exactly when it is a `for` loop of the form `for(T idx = C; idx ⊙ C'; step)`
with `T ∈ {int, uint, float}`, `C`/`C'` constant expressions, `⊙` one of
`< <= > >= == !=` applied to the index on the left, and `step` one of
`++idx`, `--idx`, `idx++`, `idx--`, `idx += C`, `idx -= C`; in particular
every while/do-while loop and every deviation from this form reports at
least one error. -/
theorem c1_loop_form_validation (l : GLC.TIntermLoop)
    (hwf : GLC.exprOpsWellFormed l = true) :
    (GLC.validateLoop l).2 = [] ↔ GLC.specAcceptedForLoop l = true := by
  obtain ⟨lt, ini, cnd, exp⟩ := l
  cases lt
  case ELoopWhile =>
    simp [GLC.validateLoop, GLC.validateLoopType, GLC.specAcceptedForLoop]
  case ELoopDoWhile =>
    simp [GLC.validateLoop, GLC.validateLoopType, GLC.specAcceptedForLoop]
  case ELoopFor =>
    have hinit := GLC.validateForLoopInit_spec ini
    rcases hvi : GLC.validateForLoopInit ini with ⟨oid, e2⟩
    rw [hvi] at hinit
    rcases oid with _ | id
    · have hspec : GLC.specGoodInit ini = none := hinit.1.symm
      have he2 : e2 ≠ [] := by
        intro h
        have := hinit.2.mp h
        rw [hspec] at this
        simp at this
      simp [GLC.validateLoop, GLC.validateLoopType, hvi, GLC.specAcceptedForLoop, hspec, he2]
    · have hspec : GLC.specGoodInit ini = some id := hinit.1.symm
      have he2 : e2 = [] := by
        have := hinit.2.mpr (by rw [hspec]; simp)
        exact this
      subst he2
      have hcond := GLC.validateForLoopCond_spec cnd id
      rcases hvc : GLC.validateForLoopCond cnd id with ⟨ok3, e3⟩
      rw [hvc] at hcond
      have hexpr := GLC.validateForLoopExpr_spec exp id
        (by simpa [GLC.exprOpsWellFormed] using hwf)
      rcases hve : GLC.validateForLoopExpr exp id with ⟨ok4, e4⟩
      rw [hve] at hexpr
      cases ok3
      case false =>
        have he3 : e3 ≠ [] := by
          intro h
          have := hcond.2 h
          simp at this
        have hcspec : GLC.specGoodCond cnd id = false := by
          by_contra hc
          have : GLC.specGoodCond cnd id = true := by
            cases h : GLC.specGoodCond cnd id
            · exact absurd h hc
            · rfl
          exact he3 (hcond.1.mpr this)
        simp [GLC.validateLoop, GLC.validateLoopType, hvi, hvc,
          GLC.specAcceptedForLoop, hspec, he3, hcspec]
      case true =>
        have hcomp : (GLC.validateLoop ⟨.ELoopFor, ini, cnd, exp⟩).2 = e3 ++ e4 := by
          simp [GLC.validateLoop, GLC.validateLoopType, hvi, hvc, hve]
        have hspecA : GLC.specAcceptedForLoop ⟨.ELoopFor, ini, cnd, exp⟩ =
            (GLC.specGoodCond cnd id && GLC.specGoodExpr exp id) := by
          simp [GLC.specAcceptedForLoop, hspec]
        rw [hcomp, hspecA]
        simp [List.append_eq_nil, hcond.1, hexpr.1]

/-- Witness for C1 at a concrete loop: `for(int i = 0; i < 4; ++i)`. -/
theorem c1_witness :
    (let intTy : GLC.TType := ⟨.EbtInt, .EvqTemporary, 1⟩
     let l : GLC.TIntermLoop :=
       ⟨.ELoopFor,
        some (.aggregate .EOpDeclaration
          [.binary .EOpInitialize intTy (.symbol 7 intTy "i") (.constantUnion intTy)]),
        some (.binary .EOpLessThan intTy (.symbol 7 intTy "i") (.constantUnion intTy)),
        some (.unary .EOpPreIncrement intTy (.symbol 7 intTy "i"))⟩
     GLC.exprOpsWellFormed l = true ∧
       ((GLC.validateLoop l).2 = [] ↔ GLC.specAcceptedForLoop l = true)) :=
  ⟨rfl, c1_loop_form_validation _ rfl⟩

namespace GLC

mutual

/-- All symbols occurring in an expression, with their id and type — the
nodes visited by `TIntermTraverser::visitSymbol` during the
`ValidateConstIndexExpr` traversal (ValidateLimitations.cpp:57-78). -/
def nodeSymbols : TIntermNode → List (Nat × TType)
  | .symbol id ty _ => [(id, ty)]
  | .constantUnion _ => []
  | .binary _ _ lhs rhs => nodeSymbols lhs ++ nodeSymbols rhs
  | .unary _ _ operand => nodeSymbols operand
  | .aggregate _ seq => nodeSymbolsList seq

/-- Symbols of a node sequence, in traversal order. -/
def nodeSymbolsList : List TIntermNode → List (Nat × TType)
  | [] => []
  | n :: rest => nodeSymbols n ++ nodeSymbolsList rest

end

/-- `IsLoopIndex` (ValidateLimitations.cpp:28-37): the loop stack is the list
of index ids of the enclosing loops. -/
def IsLoopIndex (stack : List Nat) (id : Nat) : Bool := stack.contains id

/-- `ValidateLimitations::isConstIndexExpr`
(ValidateLimitations.cpp:496-503): the traversal accepts an expression iff
every symbol in it is an `EvqConstExpr` constant or a loop index of the
current stack. -/
def isConstIndexExpr (stack : List Nat) (n : TIntermNode) : Bool :=
  (nodeSymbols n).all fun s => s.2.qualifier = .EvqConstExpr || IsLoopIndex stack s.1

/-- `GL_VERTEX_SHADER` (ValidateLimitations.cpp:24). -/
def GL_VERTEX_SHADER : Nat := 0x8B31

/-- `GL_FRAGMENT_SHADER` (GLES2/gl2.h). -/
def GL_FRAGMENT_SHADER : Nat := 0x8B30

/-- `ValidateLimitations::validateIndexing`
(ValidateLimitations.cpp:505-529), given the shader type, the loop stack and
the indexing node's operand (left) and index (right); the node's operator is
asserted to be `EOpIndexDirect` or `EOpIndexIndirect`. -/
def validateIndexing (shaderType : Nat) (stack : List Nat)
    (operand index : TIntermNode) : Bool × List ErrMsg :=
  let (v1, e1) :=
    if ¬ (getTType index).isScalarInt then
      (false, [(⟨"Index expression must have integral type",
        getBasicString (getTType index).basicType⟩ : ErrMsg)])
    else (true, ([] : List ErrMsg))
  let skip := shaderType = GL_VERTEX_SHADER ∧ (getTType operand).qualifier = .EvqUniform
  if ¬ skip ∧ ¬ isConstIndexExpr stack index then
    (false, e1 ++ [⟨"Index expression must be constant", "[]"⟩])
  else (v1, e1)

end GLC

/-- C3 counterexample: in a vertex shader, indexing an `EvqUniform` operand
with a non-constant scalar-int index reports no error at all, contradicting
the claim that every non-constant index expression is rejected regardless of
shader type and operand. -/
theorem c3_counterexample :
    (let uniformTy : GLC.TType := ⟨.EbtFloat, .EvqUniform, 4⟩
     let intTemp : GLC.TType := ⟨.EbtInt, .EvqTemporary, 1⟩
     GLC.isConstIndexExpr [] (.symbol 2 intTemp "i") = false ∧
       GLC.validateIndexing GLC.GL_VERTEX_SHADER []
         (.symbol 1 uniformTy "u") (.symbol 2 intTemp "i") = (true, [])) := by
  constructor
  · rfl
  · rfl

/-- C3 amended: a non-constant index expression (one not built solely from
`EvqConstExpr` symbols and enclosing-loop indices) is always rejected with an
error, except when the shader is a vertex shader and the indexed operand is
qualified `EvqUniform`, in which case the constant-index requirement is
skipped. -/
theorem c3_nonconst_index_rejected (shaderType : Nat) (stack : List Nat)
    (operand index : GLC.TIntermNode)
    (hNonConst : GLC.isConstIndexExpr stack index = false)
    (hNoSkip : ¬(shaderType = GLC.GL_VERTEX_SHADER ∧
      (GLC.getTType operand).qualifier = .EvqUniform)) :
    (GLC.validateIndexing shaderType stack operand index).2 ≠ [] := by
  unfold GLC.validateIndexing
  simp only [hNonConst]
  rw [if_pos ⟨hNoSkip, by simp⟩]
  split <;> simp

/-- Witness for the amended C3 in a fragment shader with a non-constant
index. -/
theorem c3_witness :
    (let intTemp : GLC.TType := ⟨.EbtInt, .EvqTemporary, 1⟩
     let uniformTy : GLC.TType := ⟨.EbtFloat, .EvqUniform, 4⟩
     GLC.isConstIndexExpr [] (.symbol 2 intTemp "i") = false ∧
       ¬(GLC.GL_FRAGMENT_SHADER = GLC.GL_VERTEX_SHADER ∧
         (GLC.getTType (.symbol 1 uniformTy "u")).qualifier = .EvqUniform) ∧
       (GLC.validateIndexing GLC.GL_FRAGMENT_SHADER []
         (.symbol 1 uniformTy "u") (.symbol 2 intTemp "i")).2 ≠ []) :=
  ⟨rfl, by intro h; exact absurd h.1 (by decide),
    c3_nonconst_index_rejected GLC.GL_FRAGMENT_SHADER [] _ _ rfl
      (by intro h; exact absurd h.1 (by decide))⟩

namespace PP

/-- Token kinds distinguished by the directive parser (Token.h): `LAST` is
the end-of-input token, punctuation tokens carry their character (a newline
token is the end-of-directive marker). -/
inductive TokType where
  | LAST | IDENTIFIER | CONST_INT | CONST_FLOAT | PP_HASH | OP_OTHER
  | punct (c : Char)
  deriving DecidableEq, Repr

/-- `pp::SourceLocation`. -/
structure SourceLocation where
  file : Int
  line : Int
  deriving DecidableEq, Repr

/-- `pp::Token`. `ival` abstracts `Token::iValue` (Token.cpp is not part of
src): `some v` when the text parses as the integer `v`, `none` on overflow. -/
structure Token where
  ttype : TokType
  text : String
  location : SourceLocation
  leadingSpace : Bool
  ival : Option Int
  deriving DecidableEq, Repr

/-- The token produced by a tokenizer that has reached the end of input. -/
def lastToken : Token := ⟨.LAST, "", ⟨0, 0⟩, false, none⟩

/-- `isEOD` (DirectiveParser.cpp:115-118). -/
def isEOD (t : Token) : Bool := t.ttype = .punct '\n' || t.ttype = .LAST

/-- One `lex` call on the tokenizer, modelled as a token list; an exhausted
tokenizer yields `LAST` forever. -/
def lexT : List Token → Token × List Token
  | [] => (lastToken, [])
  | t :: ts => (t, ts)

/-- `skipUntilEOD` (DirectiveParser.cpp:120-126). -/
def skipUntilEOD (ts : List Token) (tok : Token) : Token × List Token :=
  if isEOD tok then (tok, ts)
  else
    match ts with
    | [] => (lastToken, [])
    | t :: rest => skipUntilEOD rest t

/-- `pp::Diagnostics::ID`, restricted to the ids reported by the directive
parser paths modelled here. -/
inductive DiagID where
  | PP_CONDITIONAL_ELIF_WITHOUT_IF | PP_CONDITIONAL_ELSE_WITHOUT_IF
  | PP_CONDITIONAL_ELSE_AFTER_ELSE | PP_CONDITIONAL_ELIF_AFTER_ELSE
  | PP_CONDITIONAL_ENDIF_WITHOUT_IF | PP_CONDITIONAL_UNEXPECTED_TOKEN
  | PP_CONDITIONAL_UNTERMINATED
  | PP_MACRO_DUPLICATE_PARAMETER_NAMES | PP_MACRO_NAME_RESERVED
  | PP_WARNING_MACRO_NAME_RESERVED | PP_MACRO_PREDEFINED_REDEFINED
  | PP_MACRO_PREDEFINED_UNDEFINED | PP_MACRO_UNDEFINED_WHILE_INVOKED
  | PP_MACRO_REDEFINED | PP_UNEXPECTED_TOKEN
  | PP_INVALID_VERSION_NUMBER | PP_INVALID_VERSION_DIRECTIVE
  | PP_INTEGER_OVERFLOW | PP_VERSION_NOT_FIRST_STATEMENT
  | PP_VERSION_NOT_FIRST_LINE_ESSL3
  | PP_EOF_IN_DIRECTIVE | PP_DIRECTIVE_INVALID_NAME
  deriving DecidableEq, Repr

/-- One diagnostic reported on the sink: id, source location and text. -/
structure Diag where
  did : DiagID
  loc : SourceLocation
  text : String
  deriving DecidableEq, Repr

/-- `Macro::Type`. -/
inductive MacroType where
  | kTypeObj | kTypeFunc
  deriving DecidableEq, Repr

/-- `pp::Macro` (Macro.h). -/
structure Macro where
  mtype : MacroType
  name : String
  parameters : List String
  replacements : List Token
  predefined : Bool
  expansionCount : Nat
  deriving DecidableEq, Repr

/-- Modelled from the spec: `Macro::equals` (Macro.cpp is not in src) —
"redefinition is allowed only if the new body equals the old
token-for-token", so equality compares kind, name, parameters and
replacement tokens. -/
def macroEquals (a b : Macro) : Bool :=
  a.mtype = b.mtype ∧ a.name = b.name ∧ a.parameters = b.parameters ∧
    a.replacements = b.replacements

/-- `pp::MacroSet` = `std::map<std::string, std::shared_ptr<Macro>>`,
embedded as an association list whose keys are unique. -/
abbrev MacroSet := List (String × Macro)

/-- `MacroSet::find`. -/
def msFind : MacroSet → String → Option Macro
  | [], _ => none
  | (k, m) :: rest, name => if k = name then some m else msFind rest name

/-- `std::map::insert`: inserts only when the key is not already present. -/
def msInsert (ms : MacroSet) (name : String) (m : Macro) : MacroSet :=
  match msFind ms name with
  | some _ => ms
  | none => ms ++ [(name, m)]

/-- `std::map::erase` of the iterator returned by `find`: removes the
matching entry. -/
def msErase : MacroSet → String → MacroSet
  | [], _ => []
  | (k, m) :: rest, name => if k = name then rest else (k, m) :: msErase rest name

/-- `isMacroPredefined` (DirectiveParser.cpp:139-143). -/
def isMacroPredefined (name : String) (ms : MacroSet) : Bool :=
  match msFind ms name with
  | some m => m.predefined
  | none => false

/-- `isMacroNameReserved` (DirectiveParser.cpp:128-132). -/
def isMacroNameReserved (name : String) : Bool := name.take 3 = "GL_"

/-- Scan of a character list for two consecutive underscores. -/
def hasDoubleUnderscoresList : List Char → Bool
  | c1 :: c2 :: rest => (c1 = '_' && c2 = '_') || hasDoubleUnderscoresList (c2 :: rest)
  | _ => false

/-- `hasDoubleUnderscores` (DirectiveParser.cpp:134-137). -/
def hasDoubleUnderscores (name : String) : Bool :=
  hasDoubleUnderscoresList name.toList

/-- Outcome of the parameter-collection loop of `parseDefine`
(DirectiveParser.cpp:371-387): either a duplicate name aborts the
directive, or the loop finishes with the token that ended it. -/
inductive ParamsOut where
  | dup (d : Diag)
  | done (params : List String) (tok : Token) (rest : List Token)
  deriving DecidableEq, Repr

/-- The do-while parameter-collection loop of `parseDefine`. -/
def collectParams : List Token → List String → ParamsOut
  | [], params => .done params lastToken []
  | t :: ts, params =>
    if t.ttype ≠ .IDENTIFIER then .done params t ts
    else if params.contains t.text then
      .dup ⟨.PP_MACRO_DUPLICATE_PARAMETER_NAMES, t.location, t.text⟩
    else
      match ts with
      | [] => .done (params ++ [t.text]) lastToken []
      | t2 :: ts2 =>
        if t2.ttype = .punct ',' then collectParams ts2 (params ++ [t.text])
        else .done (params ++ [t.text]) t2 ts2

/-- The replacement-collection loop of `parseDefine`
(DirectiveParser.cpp:397-404): tokens up to the end of the line, with their
location reset. -/
def collectReplacements (tok : Token) (ts : List Token) :
    List Token × Token × List Token :=
  if tok.ttype = .punct '\n' ∨ tok.ttype = .LAST then ([], tok, ts)
  else
    match ts with
    | [] => ([{ tok with location := ⟨0, 0⟩ }], lastToken, [])
    | t :: rest =>
      let (reps, stop, rest') := collectReplacements t rest
      ({ tok with location := ⟨0, 0⟩ } :: reps, stop, rest')

/-- Clearing of the leading-space flag of the first replacement token
(DirectiveParser.cpp:406-411). -/
def clearFirstLeadingSpace : List Token → List Token
  | [] => []
  | t :: rest => { t with leadingSpace := false } :: rest

/-- Tail of `parseDefine` (DirectiveParser.cpp:397-421): collect the
replacement list, check for redefinition, insert. -/
def finishDefine (ms : MacroSet) (warn : List Diag) (name : String)
    (mt : MacroType) (params : List String) (tok : Token) (ts : List Token) :
    MacroSet × List Diag :=
  let (reps0, stopTok, _) := collectReplacements tok ts
  let reps := clearFirstLeadingSpace reps0
  let mac : Macro := ⟨mt, name, params, reps, false, 0⟩
  match msFind ms name with
  | some old =>
    if ¬ macroEquals mac old then
      (ms, warn ++ [⟨.PP_MACRO_REDEFINED, stopTok.location, name⟩])
    else (msInsert ms name mac, warn)
  | none => (msInsert ms name mac, warn)

/-- `DirectiveParser::parseDefine` (DirectiveParser.cpp:335-421), after the
`define` keyword has been consumed; returns the new macro table and the
diagnostics reported. -/
def parseDefine (ts : List Token) (ms : MacroSet) : MacroSet × List Diag :=
  let (tok, ts1) := lexT ts
  if tok.ttype ≠ .IDENTIFIER then
    (ms, [⟨.PP_UNEXPECTED_TOKEN, tok.location, tok.text⟩])
  else if isMacroPredefined tok.text ms then
    (ms, [⟨.PP_MACRO_PREDEFINED_REDEFINED, tok.location, tok.text⟩])
  else if isMacroNameReserved tok.text then
    (ms, [⟨.PP_MACRO_NAME_RESERVED, tok.location, tok.text⟩])
  else
    let warn : List Diag :=
      if hasDoubleUnderscores tok.text then
        [⟨.PP_WARNING_MACRO_NAME_RESERVED, tok.location, tok.text⟩]
      else []
    let name := tok.text
    let (tok2, ts2) := lexT ts1
    if tok2.ttype = .punct '(' ∧ tok2.leadingSpace = false then
      match collectParams ts2 [] with
      | .dup d => (ms, warn ++ [d])
      | .done params tok3 ts3 =>
        if tok3.ttype ≠ .punct ')' then
          (ms, warn ++ [⟨.PP_UNEXPECTED_TOKEN, tok3.location, tok3.text⟩])
        else
          let (tok4, ts4) := lexT ts3
          finishDefine ms warn name .kTypeFunc params tok4 ts4
    else
      finishDefine ms warn name .kTypeObj [] tok2 ts2

/-- `DirectiveParser::parseUndef` (DirectiveParser.cpp:423-459), after the
`undef` keyword has been consumed. -/
def parseUndef (ts : List Token) (ms : MacroSet) : MacroSet × List Diag :=
  let (tok, ts1) := lexT ts
  if tok.ttype ≠ .IDENTIFIER then
    (ms, [⟨.PP_UNEXPECTED_TOKEN, tok.location, tok.text⟩])
  else
    match msFind ms tok.text with
    | some m =>
      if m.predefined then
        (ms, [⟨.PP_MACRO_PREDEFINED_UNDEFINED, tok.location, tok.text⟩])
      else if m.expansionCount > 0 then
        (ms, [⟨.PP_MACRO_UNDEFINED_WHILE_INVOKED, tok.location, tok.text⟩])
      else
        let ms' := msErase ms tok.text
        let (tok2, _) := lexT ts1
        if ¬ isEOD tok2 then
          (ms', [⟨.PP_UNEXPECTED_TOKEN, tok2.location, tok2.text⟩])
        else (ms', [])
    | none =>
      let (tok2, _) := lexT ts1
      if ¬ isEOD tok2 then
        (ms, [⟨.PP_UNEXPECTED_TOKEN, tok2.location, tok2.text⟩])
      else (ms, [])

/-- Entries of an erased table never carry the erased key, given unique
keys. -/
theorem msErase_not_mem (ms : MacroSet) (name : String)
    (hnd : (ms.map Prod.fst).Nodup) :
    ∀ e ∈ msErase ms name, e.1 ≠ name := by
  induction ms with
  | nil => intro e he; simp [msErase] at he
  | cons hd tl ih =>
    obtain ⟨k, m⟩ := hd
    simp only [List.map_cons, List.nodup_cons] at hnd
    intro e he
    by_cases hk : k = name
    · subst hk
      simp only [msErase, if_pos rfl] at he
      intro hcontra
      exact hnd.1 (by
        have : e.1 ∈ tl.map Prod.fst := List.mem_map.mpr ⟨e, he, rfl⟩
        rwa [hcontra] at this)
    · simp only [msErase, if_neg hk] at he
      rcases List.mem_cons.mp he with h | h
      · subst h; exact hk
      · exact ih hnd.2 e h

end PP

namespace PP

/-- Token stream for a comma-separated macro parameter list
`p1 , p2 , ... , pn`. -/
def paramListToks (loc : SourceLocation) : List String → List Token
  | [] => []
  | [p] => [⟨.IDENTIFIER, p, loc, false, none⟩]
  | p :: q :: rest =>
    ⟨.IDENTIFIER, p, loc, false, none⟩ ::
      ⟨.punct ',', ",", loc, false, none⟩ :: paramListToks loc (q :: rest)

/-- The parameter-collection loop aborts with the duplicate-parameter
diagnostic whenever the parameters already collected plus the remaining
names contain a repetition. -/
theorem collectParams_dup (loc : SourceLocation) (names : List String)
    (trailing : List Token) :
    ∀ acc : List String, acc.Nodup → ¬ (acc ++ names).Nodup →
    ∃ d, collectParams (paramListToks loc names ++ trailing) acc = .dup d ∧
      d.did = .PP_MACRO_DUPLICATE_PARAMETER_NAMES := by
  induction names with
  | nil =>
    intro acc hacc hdup
    exact absurd (by simpa using hacc) hdup
  | cons p rest ih =>
    intro acc hacc hdup
    cases rest with
    | nil =>
      have hp : p ∈ acc := by
        by_contra hnp
        exact hdup (by simp [List.nodup_append, hacc, hnp])
      refine ⟨⟨.PP_MACRO_DUPLICATE_PARAMETER_NAMES, loc, p⟩, ?_, rfl⟩
      simp only [paramListToks, List.singleton_append]
      rw [collectParams.eq_def]
      simp [List.contains, List.elem_eq_mem, hp]
    | cons q rest2 =>
      by_cases hp : p ∈ acc
      · refine ⟨⟨.PP_MACRO_DUPLICATE_PARAMETER_NAMES, loc, p⟩, ?_, rfl⟩
        simp only [paramListToks, List.cons_append]
        rw [collectParams.eq_def]
        simp [List.contains, List.elem_eq_mem, hp]
      · have hacc' : (acc ++ [p]).Nodup := by
          simp [List.nodup_append, hacc, hp]
        have hdup' : ¬ ((acc ++ [p]) ++ (q :: rest2)).Nodup := by
          rw [List.append_assoc]
          simpa using hdup
        obtain ⟨d, hd, hdid⟩ := ih (acc ++ [p]) hacc' hdup'
        refine ⟨d, ?_, hdid⟩
        simp only [paramListToks, List.cons_append]
        rw [collectParams.eq_def]
        simpa [List.contains, List.elem_eq_mem, hp] using hd

end PP

/-- C5: a `#define` of a function-like macro whose parameter list repeats a
name reports `PP_MACRO_DUPLICATE_PARAMETER_NAMES` and leaves the macro table
unchanged: the macro is not registered. -/
theorem c5_duplicate_macro_parameter (ms : PP.MacroSet) (nameTok : PP.Token)
    (names : List String) (trailing : List PP.Token) (loc : PP.SourceLocation)
    (hname : nameTok.ttype = .IDENTIFIER)
    (hpre : PP.isMacroPredefined nameTok.text ms = false)
    (hres : PP.isMacroNameReserved nameTok.text = false)
    (hdup : ¬ names.Nodup) :
    (PP.parseDefine
        (nameTok :: (⟨.punct '(', "(", loc, false, none⟩ : PP.Token) ::
          (PP.paramListToks loc names ++ trailing)) ms).1 = ms ∧
    ∃ d ∈ (PP.parseDefine
        (nameTok :: (⟨.punct '(', "(", loc, false, none⟩ : PP.Token) ::
          (PP.paramListToks loc names ++ trailing)) ms).2,
      d.did = .PP_MACRO_DUPLICATE_PARAMETER_NAMES := by
  obtain ⟨d, hd, hdid⟩ :=
    PP.collectParams_dup loc names trailing [] List.nodup_nil (by simpa using hdup)
  have hname' : ¬ nameTok.ttype ≠ PP.TokType.IDENTIFIER := by simp [hname]
  constructor
  · simp [PP.parseDefine, PP.lexT, hname', hpre, hres, hd]
  · refine ⟨d, ?_, hdid⟩
    simp [PP.parseDefine, PP.lexT, hname', hpre, hres, hd]

/-- Witness for C5: `#define A(x,x) x`. -/
theorem c5_witness :
    (let nameTok : PP.Token := ⟨.IDENTIFIER, "A", ⟨0, 1⟩, true, none⟩
     let loc : PP.SourceLocation := ⟨0, 1⟩
     let body : List PP.Token := [⟨.punct ')', ")", loc, false, none⟩,
       ⟨.IDENTIFIER, "x", loc, true, none⟩, ⟨.punct '\n', "", loc, false, none⟩]
     nameTok.ttype = PP.TokType.IDENTIFIER ∧
     PP.isMacroPredefined nameTok.text [] = false ∧
     PP.isMacroNameReserved nameTok.text = false ∧
     ¬ (["x", "x"] : List String).Nodup ∧
     ((PP.parseDefine
         (nameTok :: (⟨.punct '(', "(", loc, false, none⟩ : PP.Token) ::
           (PP.paramListToks loc ["x", "x"] ++ body)) []).1 = [] ∧
      ∃ d ∈ (PP.parseDefine
         (nameTok :: (⟨.punct '(', "(", loc, false, none⟩ : PP.Token) ::
           (PP.paramListToks loc ["x", "x"] ++ body)) []).2,
        d.did = .PP_MACRO_DUPLICATE_PARAMETER_NAMES)) :=
  ⟨rfl, rfl, rfl, by decide,
    c5_duplicate_macro_parameter [] ⟨.IDENTIFIER, "A", ⟨0, 1⟩, true, none⟩
      ["x", "x"] _ ⟨0, 1⟩ rfl rfl rfl (by decide)⟩

/-- C6: for a `#undef name` whose name is in the macro table: a predefined
entry reports the predefined-undefined diagnostic with the table unchanged;
an entry with positive expansion count reports the undefined-while-invoked
diagnostic with the table unchanged; otherwise the entry is erased and no
entry with that name remains. -/
theorem c6_parseUndef (ms : PP.MacroSet) (t : PP.Token) (ts1 : List PP.Token)
    (m : PP.Macro)
    (hid : t.ttype = .IDENTIFIER)
    (hfind : PP.msFind ms t.text = some m)
    (hnd : (ms.map Prod.fst).Nodup) :
    (m.predefined = true →
      (PP.parseUndef (t :: ts1) ms).1 = ms ∧
        (PP.parseUndef (t :: ts1) ms).2 =
          [⟨.PP_MACRO_PREDEFINED_UNDEFINED, t.location, t.text⟩]) ∧
    (m.predefined = false → 0 < m.expansionCount →
      (PP.parseUndef (t :: ts1) ms).1 = ms ∧
        (PP.parseUndef (t :: ts1) ms).2 =
          [⟨.PP_MACRO_UNDEFINED_WHILE_INVOKED, t.location, t.text⟩]) ∧
    (m.predefined = false → m.expansionCount = 0 →
      (PP.parseUndef (t :: ts1) ms).1 = PP.msErase ms t.text ∧
        ∀ e ∈ (PP.parseUndef (t :: ts1) ms).1, e.1 ≠ t.text) := by
  have hid' : ¬ t.ttype ≠ PP.TokType.IDENTIFIER := by simp [hid]
  refine ⟨?_, ?_, ?_⟩
  · intro hpre
    constructor <;> simp [PP.parseUndef, PP.lexT, hid', hfind, hpre]
  · intro hpre hcnt
    constructor <;> simp [PP.parseUndef, PP.lexT, hid', hfind, hpre, hcnt]
  · intro hpre hcnt
    have h1 : (PP.parseUndef (t :: ts1) ms).1 = PP.msErase ms t.text := by
      simp [PP.parseUndef, PP.lexT, hid', hfind, hpre, hcnt, apply_ite]
    refine ⟨h1, ?_⟩
    rw [h1]
    exact PP.msErase_not_mem ms t.text hnd

/-- Witness for C6 at a concrete table `{A, B}` undefining `A`. -/
theorem c6_witness :
    (let mA : PP.Macro := ⟨.kTypeObj, "A", [], [], false, 0⟩
     let mB : PP.Macro := ⟨.kTypeObj, "B", [], [], false, 0⟩
     let ms : PP.MacroSet := [("A", mA), ("B", mB)]
     let t : PP.Token := ⟨.IDENTIFIER, "A", ⟨0, 1⟩, true, none⟩
     t.ttype = PP.TokType.IDENTIFIER ∧ PP.msFind ms t.text = some mA ∧
     (ms.map Prod.fst).Nodup ∧
     (mA.predefined = false → mA.expansionCount = 0 →
       (PP.parseUndef (t :: []) ms).1 = PP.msErase ms t.text ∧
         ∀ e ∈ (PP.parseUndef (t :: []) ms).1, e.1 ≠ t.text)) :=
  ⟨rfl, rfl, by decide,
    (c6_parseUndef [("A", ⟨.kTypeObj, "A", [], [], false, 0⟩),
        ("B", ⟨.kTypeObj, "B", [], [], false, 0⟩)]
      ⟨.IDENTIFIER, "A", ⟨0, 1⟩, true, none⟩ [] ⟨.kTypeObj, "A", [], [], false, 0⟩
      rfl rfl (by decide)).2.2⟩

namespace PP

/-- `DirectiveParser::ConditionalBlock` (DirectiveParser.h). -/
structure ConditionalBlock where
  btype : String
  location : SourceLocation
  skipBlock : Bool
  foundElseGroup : Bool
  skipGroup : Bool
  foundValidGroup : Bool
  deriving DecidableEq, Repr

/-- The conditional-block stack (`std::vector` with `push_back`/`back`),
embedded with the vector's back — the most recently opened block — as the
list head. -/
abbrev CondStack := List ConditionalBlock

/-- `DirectiveParser::skipping` (DirectiveParser.cpp:870-878). -/
def skipping : CondStack → Bool
  | [] => false
  | b :: _ => b.skipBlock || b.skipGroup

/-- The conditional directives manipulating the stack; `#if` and `#elif`
carry the integer value their expression would evaluate to, `#ifdef`/
`#ifndef` whether the queried macro is defined (the expression machinery —
ExpressionParser/MacroExpander — is not part of src; its decision logic here
only consumes the resulting value). -/
inductive CondDirective where
  | dIf (value : Int)
  | dIfdef (defined : Bool)
  | dIfndef (defined : Bool)
  | dElse
  | dElif (value : Int)
  | dEndif
  deriving DecidableEq, Repr

/-- Result of one conditional directive: the new stack, whether the
directive's expression was evaluated (a `parseExpressionIf` /
`parseExpressionIfdef` step was taken), and the diagnostics reported. -/
structure CondStepResult where
  stack : CondStack
  evaluated : Bool
  diags : List Diag
  deriving Repr

/-- `DirectiveParser::parseConditionalIf` (DirectiveParser.cpp:880-918):
inside a skipped group the whole block is skipped without evaluating the
expression; otherwise the expression decides the first group. -/
def parseConditionalIfStep (stk : CondStack) (btype : String)
    (loc : SourceLocation) (expression : Int) : CondStepResult :=
  if skipping stk then
    ⟨(⟨btype, loc, true, false, false, false⟩ : ConditionalBlock) :: stk, false, []⟩
  else
    ⟨(⟨btype, loc, false, false, expression = 0, expression ≠ 0⟩ : ConditionalBlock) :: stk,
      true, []⟩

/-- `DirectiveParser::parseElse` (DirectiveParser.cpp:479-515), restricted
to its effect on the stack (the trailing-token check touches only the
token stream). -/
def parseElseStep (stk : CondStack) (tok : Token) : CondStepResult :=
  match stk with
  | [] => ⟨[], false, [⟨.PP_CONDITIONAL_ELSE_WITHOUT_IF, tok.location, tok.text⟩]⟩
  | b :: rest =>
    if b.skipBlock then ⟨b :: rest, false, []⟩
    else if b.foundElseGroup then
      ⟨b :: rest, false, [⟨.PP_CONDITIONAL_ELSE_AFTER_ELSE, tok.location, tok.text⟩]⟩
    else
      let b' : ConditionalBlock :=
        ⟨b.btype, b.location, b.skipBlock, true, b.foundValidGroup, true⟩
      ⟨b' :: rest, false, []⟩

/-- `DirectiveParser::parseElif` (DirectiveParser.cpp:517-552): after a
skipped block, after `#else`, or after a group that already evaluated true,
the expression is not evaluated. -/
def parseElifStep (stk : CondStack) (tok : Token) (value : Int) : CondStepResult :=
  match stk with
  | [] => ⟨[], false, [⟨.PP_CONDITIONAL_ELIF_WITHOUT_IF, tok.location, tok.text⟩]⟩
  | b :: rest =>
    if b.skipBlock then ⟨b :: rest, false, []⟩
    else if b.foundElseGroup then
      ⟨b :: rest, false, [⟨.PP_CONDITIONAL_ELIF_AFTER_ELSE, tok.location, tok.text⟩]⟩
    else if b.foundValidGroup then
      ⟨{ b with skipGroup := true } :: rest, false, []⟩
    else
      let b' : ConditionalBlock :=
        ⟨b.btype, b.location, b.skipBlock, b.foundElseGroup, value = 0, value ≠ 0⟩
      ⟨b' :: rest, true, []⟩

/-- `DirectiveParser::parseEndif` (DirectiveParser.cpp:554-574), restricted
to its effect on the stack. -/
def parseEndifStep (stk : CondStack) (tok : Token) : CondStepResult :=
  match stk with
  | [] => ⟨[], false, [⟨.PP_CONDITIONAL_ENDIF_WITHOUT_IF, tok.location, tok.text⟩]⟩
  | _ :: rest => ⟨rest, false, []⟩

/-- Dispatch of one conditional directive (DirectiveParser.cpp:290-307);
`#ifndef` inverts the ifdef expression. -/
def stepCond (stk : CondStack) (tok : Token) : CondDirective → CondStepResult
  | .dIf v => parseConditionalIfStep stk tok.text tok.location v
  | .dIfdef dfnd => parseConditionalIfStep stk tok.text tok.location (if dfnd then 1 else 0)
  | .dIfndef dfnd => parseConditionalIfStep stk tok.text tok.location (if dfnd then 0 else 1)
  | .dElse => parseElseStep stk tok
  | .dElif v => parseElifStep stk tok v
  | .dEndif => parseEndifStep stk tok

/-- The trace of a directive sequence: for each directive, the stack it ran
on, the directive, and whether its expression was evaluated. -/
def runCond (stk : CondStack) (tok : Token) :
    List CondDirective → List (CondStack × CondDirective × Bool)
  | [] => []
  | d :: ds =>
    (stk, d, (stepCond stk tok d).evaluated) :: runCond (stepCond stk tok d).stack tok ds

end PP

namespace PP

/-- The state of a conditional block after one of its groups has evaluated
true: `foundValidGroup` is set, the block itself is not inside a skipped
region, and if an `#else` has already been seen its (now dead) group is
being skipped. This is established when `parseConditionalIf` or `parseElif`
evaluates a nonzero expression and is preserved by every later directive of
the block. -/
def validGroupSeen (b : ConditionalBlock) : Prop :=
  b.foundValidGroup = true ∧ b.skipBlock = false ∧
    (b.foundElseGroup = true → b.skipGroup = true)

/-- The block of interest sits directly above the fixed lower stack `tail0`
and has seen a valid group. -/
def blockInv (tail0 : CondStack) (s : CondStack) : Prop :=
  ∃ pre b, s = pre ++ b :: tail0 ∧ validGroupSeen b

theorem stepCond_preserves_inv (tail0 : CondStack) (s : CondStack) (tok : Token)
    (d : CondDirective) (h : blockInv tail0 s)
    (hlen : tail0.length + 1 ≤ (stepCond s tok d).stack.length) :
    blockInv tail0 (stepCond s tok d).stack := by
  obtain ⟨pre, b, rfl, hb⟩ := h
  cases d with
  | dIf v =>
    simp only [stepCond, parseConditionalIfStep]
    split <;> exact ⟨_ :: pre, b, rfl, hb⟩
  | dIfdef dfnd =>
    simp only [stepCond, parseConditionalIfStep]
    split <;> exact ⟨_ :: pre, b, rfl, hb⟩
  | dIfndef dfnd =>
    simp only [stepCond, parseConditionalIfStep]
    split <;> exact ⟨_ :: pre, b, rfl, hb⟩
  | dElse =>
    cases pre with
    | nil =>
      simp only [stepCond, parseElseStep, List.nil_append]
      rw [if_neg (by simp [hb.2.1])]
      split
      · exact ⟨[], b, rfl, hb⟩
      · refine ⟨[], _, rfl, ?_⟩
        refine ⟨rfl, hb.2.1, fun _ => ?_⟩
        simp [hb.1]
    | cons p pre' =>
      simp only [stepCond, parseElseStep, List.cons_append]
      split
      · exact ⟨p :: pre', b, rfl, hb⟩
      · split
        · exact ⟨p :: pre', b, rfl, hb⟩
        · exact ⟨_ :: pre', b, rfl, hb⟩
  | dElif v =>
    cases pre with
    | nil =>
      simp only [stepCond, parseElifStep, List.nil_append]
      rw [if_neg (by simp [hb.2.1])]
      split
      · exact ⟨[], b, rfl, hb⟩
      · rw [if_pos hb.1]
        exact ⟨[], _, rfl, ⟨hb.1, hb.2.1, fun _ => rfl⟩⟩
    | cons p pre' =>
      simp only [stepCond, parseElifStep, List.cons_append]
      split
      · exact ⟨p :: pre', b, rfl, hb⟩
      · split
        · exact ⟨p :: pre', b, rfl, hb⟩
        · split
          · exact ⟨_ :: pre', b, rfl, hb⟩
          · exact ⟨_ :: pre', b, rfl, hb⟩
  | dEndif =>
    cases pre with
    | nil =>
      exfalso
      simp only [stepCond, parseEndifStep, List.nil_append] at hlen
      simp at hlen
    | cons p pre' =>
      simp only [stepCond, parseEndifStep, List.cons_append]
      exact ⟨pre', b, rfl, hb⟩

end PP

/-- C7: for a conditional block one of whose groups has evaluated true
(`validGroupSeen`, i.e. `foundValidGroup` is set), as long as the block has
not been closed (no later stack is shorter than it), every `#elif` processed
while the block is on top takes no expression-parser step and leaves the
block with `skipGroup` set; and any `#elif` whose enclosing block is skipped
(`skipBlock`) likewise evaluates no expression. -/
theorem c7_elif_skips_expression (tail0 : PP.CondStack) (tok : PP.Token)
    (ops : List PP.CondDirective) (s0 : PP.CondStack)
    (hI : PP.blockInv tail0 s0)
    (hlen : ∀ e ∈ PP.runCond s0 tok ops, tail0.length + 1 ≤ e.1.length) :
    (∀ e ∈ PP.runCond s0 tok ops, ∀ v, e.2.1 = PP.CondDirective.dElif v →
      e.1.length = tail0.length + 1 →
      e.2.2 = false ∧
        ∀ b' rest', (PP.stepCond e.1 tok e.2.1).stack = b' :: rest' →
          b'.skipGroup = true) ∧
    (∀ e ∈ PP.runCond s0 tok ops, ∀ v, e.2.1 = PP.CondDirective.dElif v →
      ∀ b rest, e.1 = b :: rest → b.skipBlock = true → e.2.2 = false) := by
  induction ops generalizing s0 with
  | nil =>
    exact ⟨fun e he => by simp [PP.runCond] at he,
      fun e he => by simp [PP.runCond] at he⟩
  | cons d ds ih =>
    have htail : ∀ e ∈ PP.runCond (PP.stepCond s0 tok d).stack tok ds,
        tail0.length + 1 ≤ e.1.length := by
      intro e he
      exact hlen e (by rw [PP.runCond]; exact List.mem_cons_of_mem _ he)
    have hIH : ds ≠ [] →
        (∀ e ∈ PP.runCond (PP.stepCond s0 tok d).stack tok ds,
          ∀ v, e.2.1 = PP.CondDirective.dElif v →
          e.1.length = tail0.length + 1 →
          e.2.2 = false ∧
            ∀ b' rest', (PP.stepCond e.1 tok e.2.1).stack = b' :: rest' →
              b'.skipGroup = true) ∧
        (∀ e ∈ PP.runCond (PP.stepCond s0 tok d).stack tok ds,
          ∀ v, e.2.1 = PP.CondDirective.dElif v →
          ∀ b rest, e.1 = b :: rest → b.skipBlock = true → e.2.2 = false) := by
      intro hds
      cases ds with
      | nil => exact absurd rfl hds
      | cons d2 ds2 =>
        have hbound : tail0.length + 1 ≤ (PP.stepCond s0 tok d).stack.length := by
          have hmem : ((PP.stepCond s0 tok d).stack, d2,
              (PP.stepCond (PP.stepCond s0 tok d).stack tok d2).evaluated) ∈
                PP.runCond s0 tok (d :: d2 :: ds2) := by
            rw [PP.runCond]
            exact List.mem_cons_of_mem _ (by rw [PP.runCond]; exact List.mem_cons_self _ _)
          exact hlen _ hmem
        exact ih _ (PP.stepCond_preserves_inv tail0 s0 tok d hI hbound) htail
    constructor
    · intro e he v hv hlen1
      rw [PP.runCond] at he
      rcases List.mem_cons.mp he with rfl | he'
      · simp only at hv
        subst hv
        simp only at hlen1 ⊢
        obtain ⟨pre, b, heq, hb⟩ := hI
        have hpre : pre = [] := by
          rw [heq] at hlen1
          simp at hlen1
          exact hlen1
        subst hpre
        simp only [List.nil_append] at heq
        subst heq
        simp only [PP.stepCond, PP.parseElifStep]
        rw [if_neg (by simp [hb.2.1])]
        by_cases hf : b.foundElseGroup = true
        · rw [if_pos hf]
          refine ⟨rfl, ?_⟩
          intro b' rest' hbr
          simp only at hbr
          injection hbr with h1 h2
          subst h1
          exact hb.2.2 hf
        · rw [if_neg hf, if_pos hb.1]
          refine ⟨rfl, ?_⟩
          intro b' rest' hbr
          simp only at hbr
          injection hbr with h1 h2
          subst h1
          rfl
      · cases ds with
        | nil => simp [PP.runCond] at he'
        | cons d2 ds2 =>
          exact (hIH (by simp)).1 e he' v hv hlen1
    · intro e he v hv b rest hbr hskip
      rw [PP.runCond] at he
      rcases List.mem_cons.mp he with rfl | he'
      · simp only at hv hbr ⊢
        subst hv
        subst hbr
        simp only [PP.stepCond, PP.parseElifStep]
        rw [if_pos hskip]
      · cases ds with
        | nil => simp [PP.runCond] at he'
        | cons d2 ds2 =>
          exact (hIH (by simp)).2 e he' v hv b rest hbr hskip

/-- Witness for C7: a block whose `#if` evaluated true, followed by two
`#elif`s; neither is evaluated and both leave `skipGroup` set. -/
theorem c7_witness :
    (let b : PP.ConditionalBlock := ⟨"if", ⟨0, 1⟩, false, false, false, true⟩
     let tok : PP.Token := ⟨.IDENTIFIER, "elif", ⟨0, 2⟩, false, none⟩
     let ops : List PP.CondDirective := [.dElif 1, .dElif 0]
     PP.blockInv [] [b] ∧
     (∀ e ∈ PP.runCond [b] tok ops, ([] : PP.CondStack).length + 1 ≤ e.1.length) ∧
     ((∀ e ∈ PP.runCond [b] tok ops, ∀ v, e.2.1 = PP.CondDirective.dElif v →
        e.1.length = ([] : PP.CondStack).length + 1 →
        e.2.2 = false ∧
          ∀ b' rest', (PP.stepCond e.1 tok e.2.1).stack = b' :: rest' →
            b'.skipGroup = true) ∧
      (∀ e ∈ PP.runCond [b] tok ops, ∀ v, e.2.1 = PP.CondDirective.dElif v →
        ∀ bb rest, e.1 = bb :: rest → bb.skipBlock = true → e.2.2 = false))) :=
  ⟨⟨[], ⟨"if", ⟨0, 1⟩, false, false, false, true⟩, rfl, by simp [PP.validGroupSeen]⟩,
    by decide,
    c7_elif_skips_expression [] ⟨.IDENTIFIER, "elif", ⟨0, 2⟩, false, none⟩
      [.dElif 1, .dElif 0] [⟨"if", ⟨0, 1⟩, false, false, false, true⟩]
      ⟨[], ⟨"if", ⟨0, 1⟩, false, false, false, true⟩, rfl, by simp [PP.validGroupSeen]⟩
      (by decide)⟩

namespace PP

/-- The `DirectiveParser` state touched by the lex loop. -/
structure DPState where
  pastFirstStatement : Bool
  seenNonPreprocessorToken : Bool
  conditionalStack : CondStack
  deriving Repr

/-- `DirectiveParser::lex` (DirectiveParser.cpp:225-255). The processing of
a `#` line (`parseDirective`) is a parameter `pd` rewriting the current
token and possibly the state, the token stream and the diagnostics — the
end-of-file handling proved below holds for every such processing. `fuel`
bounds the do-while loop. Returns the token delivered to the caller, the
final state, the remaining stream and the diagnostics reported. -/
def dpLex (pd : DPState → Token → List Token → Token × DPState × List Token × List Diag) :
    Nat → DPState → List Token → Token × DPState × List Token × List Diag
  | 0, st, ts => (lastToken, st, ts, [])
  | fuel + 1, st, ts =>
    let (tok, ts1) := lexT ts
    let (tok2, st2, ts2, ds2) :=
      if tok.ttype = .PP_HASH then
        let (tok', st', ts', ds') := pd st tok ts1
        (tok', { st' with pastFirstStatement := true }, ts', ds')
      else if ¬ isEOD tok then
        (tok, { st with seenNonPreprocessorToken := true }, ts1, ([] : List Diag))
      else (tok, st, ts1, [])
    if tok2.ttype = .LAST then
      match st2.conditionalStack with
      | [] => (tok2, { st2 with pastFirstStatement := true }, ts2, ds2)
      | blk :: _ =>
        (tok2, { st2 with pastFirstStatement := true }, ts2,
          ds2 ++ [⟨.PP_CONDITIONAL_UNTERMINATED, blk.location, blk.btype⟩])
    else if skipping st2.conditionalStack || tok2.ttype = .punct '\n' then
      let (tokR, stR, tsR, dsR) := dpLex pd fuel st2 ts2
      (tokR, stR, tsR, ds2 ++ dsR)
    else (tok2, { st2 with pastFirstStatement := true }, ts2, ds2)

end PP

/-- C10: when the tokenizer yields the end-of-file token while the
conditional stack is non-empty, `lex` reports `PP_CONDITIONAL_UNTERMINATED`
carrying the directive type and source location of the most recently opened
block (the stack's back), and still delivers the EOF token to the caller —
for every directive-processing behaviour `pd` and every remaining state. -/
theorem c10_unterminated_conditional_at_eof
    (pd : PP.DPState → PP.Token → List PP.Token →
      PP.Token × PP.DPState × List PP.Token × List PP.Diag)
    (fuel : Nat) (st : PP.DPState) (t : PP.Token) (ts1 : List PP.Token)
    (blk : PP.ConditionalBlock) (rest : PP.CondStack)
    (hfuel : 1 ≤ fuel) (hlast : t.ttype = .LAST)
    (hstack : st.conditionalStack = blk :: rest) :
    PP.dpLex pd fuel st (t :: ts1) =
      (t, { st with pastFirstStatement := true }, ts1,
        [⟨.PP_CONDITIONAL_UNTERMINATED, blk.location, blk.btype⟩]) := by
  obtain ⟨f, rfl⟩ : ∃ f, fuel = f + 1 := ⟨fuel - 1, by omega⟩
  simp [PP.dpLex, PP.lexT, hlast, hstack, PP.isEOD]

/-- Witness for C10 with a one-block stack and a trivial directive
processor. -/
theorem c10_witness :
    (let blk : PP.ConditionalBlock := ⟨"ifdef", ⟨0, 3⟩, false, false, false, true⟩
     let st : PP.DPState := ⟨false, true, [blk]⟩
     let t : PP.Token := ⟨.LAST, "", ⟨0, 9⟩, false, none⟩
     1 ≤ 1 ∧ t.ttype = PP.TokType.LAST ∧ st.conditionalStack = [blk] ∧
     PP.dpLex (fun st' tok ts => (tok, st', ts, [])) 1 st [t] =
       (t, { st with pastFirstStatement := true }, [],
         [⟨.PP_CONDITIONAL_UNTERMINATED, blk.location, blk.btype⟩])) :=
  ⟨le_refl 1, rfl, rfl,
    c10_unterminated_conditional_at_eof (fun st' tok ts => (tok, st', ts, [])) 1
      ⟨false, true, [⟨"ifdef", ⟨0, 3⟩, false, false, false, true⟩]⟩
      ⟨.LAST, "", ⟨0, 9⟩, false, none⟩ []
      ⟨"ifdef", ⟨0, 3⟩, false, false, false, true⟩ [] (le_refl 1) rfl rfl⟩

namespace PP

/-- Modelled from the spec: `PredefineMacro` (the Macro/MacroExpander
translation unit is not in src) registers `__VERSION__` as a predefined
object macro whose single replacement token is the version number;
`std::map::operator[]` semantics overwrite any existing entry. -/
def predefineMacro (ms : MacroSet) (name : String) (value : Int) : MacroSet :=
  let tok : Token := ⟨.CONST_INT, toString value, ⟨0, 0⟩, false, some value⟩
  let mac : Macro := ⟨.kTypeObj, name, [], [tok], true, 0⟩
  match msFind ms name with
  | some _ => msErase ms name ++ [(name, mac)]
  | none => ms ++ [(name, mac)]

/-- One iteration body of `parseVersion`'s token loop
(DirectiveParser.cpp:756-791): the switch on the parse state, producing the
updated `valid`, `version`, `state` and new diagnostics. State 0 is
`VERSION_NUMBER`, 1 `VERSION_PROFILE`, 2 `VERSION_ENDLINE`. -/
def versionStep (tok : Token) (valid : Bool) (version : Int) (state : Nat) :
    Bool × Int × Nat × List Diag :=
  match state with
  | 0 =>
    let (valid1, d1) :=
      if tok.ttype ≠ .CONST_INT then
        (false, [(⟨.PP_INVALID_VERSION_NUMBER, tok.location, tok.text⟩ : Diag)])
      else (valid, [])
    let (valid2, version2, d2) :=
      if valid1 then
        match tok.ival with
        | none => (false, version, [(⟨.PP_INTEGER_OVERFLOW, tok.location, tok.text⟩ : Diag)])
        | some v => (true, v, [])
      else (valid1, version, [])
    let state2 := if valid2 then (if version2 < 300 then 2 else 1) else state
    (valid2, version2, state2, d1 ++ d2)
  | 1 =>
    let (valid1, d1) :=
      if ¬(tok.ttype = .IDENTIFIER ∧ tok.text = "es") then
        (false, [(⟨.PP_INVALID_VERSION_DIRECTIVE, tok.location, tok.text⟩ : Diag)])
      else (valid, [])
    (valid1, version, 2, d1)
  | _ =>
    (false, version, state, [⟨.PP_UNEXPECTED_TOKEN, tok.location, tok.text⟩])

/-- The `while(valid && token not EOD)` loop of `parseVersion`; returns the
final `valid`, `version`, `state`, the token on which the loop stopped, and
the accumulated diagnostics. -/
def parseVersionLoop (tok : Token) (ts : List Token) (valid : Bool)
    (version : Int) (state : Nat) (ds : List Diag) :
    Bool × Int × Nat × Token × List Diag :=
  if valid = true ∧ isEOD tok = false then
    let r := versionStep tok valid version state
    match ts with
    | [] => (r.1, r.2.1, r.2.2.1, lastToken, ds ++ r.2.2.2)
    | t :: ts' => parseVersionLoop t ts' r.1 r.2.1 r.2.2.1 (ds ++ r.2.2.2)
  else (valid, version, state, tok, ds)

/-- Result of `parseVersion`: the diagnostics, the version passed to
`DirectiveHandler::handleVersion` (none when the handler was not invoked),
the resulting shader version and macro table. -/
structure VersionResult where
  diags : List Diag
  handledVersion : Option Int
  shaderVersion : Int
  macroSet : MacroSet
  deriving Repr

/-- `DirectiveParser::parseVersion` (DirectiveParser.cpp:733-811), after the
`version` keyword (`dirTok`) has been recognized. -/
def parseVersion (pastFirstStatement : Bool) (dirTok : Token) (ts : List Token)
    (shaderVersion : Int) (ms : MacroSet) : VersionResult :=
  if pastFirstStatement then
    ⟨[⟨.PP_VERSION_NOT_FIRST_STATEMENT, dirTok.location, dirTok.text⟩], none,
      shaderVersion, ms⟩
  else
    let r := parseVersionLoop (lexT ts).1 (lexT ts).2 true 0 0 []
    let version := r.2.1
    let stopTok := r.2.2.2.1
    let p2 : Bool × List Diag :=
      if r.1 = true ∧ r.2.2.1 ≠ 2 then
        (false, r.2.2.2.2 ++
          [(⟨.PP_INVALID_VERSION_DIRECTIVE, stopTok.location, stopTok.text⟩ : Diag)])
      else (r.1, r.2.2.2.2)
    let p3 : Bool × List Diag :=
      if p2.1 = true ∧ 300 ≤ version ∧ 1 < stopTok.location.line then
        (false, p2.2 ++
          [(⟨.PP_VERSION_NOT_FIRST_LINE_ESSL3, stopTok.location, stopTok.text⟩ : Diag)])
      else p2
    if p3.1 = true then
      ⟨p3.2, some version, version, predefineMacro ms "__VERSION__" version⟩
    else ⟨p3.2, none, shaderVersion, ms⟩

end PP

namespace PP

/-- The version loop returns immediately once `valid` is false. -/
theorem parseVersionLoop_false (tok : Token) (ts : List Token) (ver : Int)
    (st : Nat) (ds : List Diag) :
    parseVersionLoop tok ts false ver st ds = (false, ver, st, tok, ds) := by
  simp [parseVersionLoop]

/-- The version loop returns immediately on an end-of-directive token. -/
theorem parseVersionLoop_eod (tok : Token) (ts : List Token) (valid : Bool)
    (ver : Int) (st : Nat) (ds : List Diag) (h : isEOD tok = true) :
    parseVersionLoop tok ts valid ver st ds = (valid, ver, st, tok, ds) := by
  simp [parseVersionLoop, h]

end PP

namespace PP

/-- One loop iteration at the end of the stream. -/
theorem parseVersionLoop_step_nil (tok : Token) (ver : Int) (st : Nat)
    (ds : List Diag) (h2 : isEOD tok = false) :
    parseVersionLoop tok [] true ver st ds =
      ((versionStep tok true ver st).1, (versionStep tok true ver st).2.1,
        (versionStep tok true ver st).2.2.1, lastToken,
        ds ++ (versionStep tok true ver st).2.2.2) := by
  rw [parseVersionLoop]
  simp [h2]

/-- One loop iteration with a following token. -/
theorem parseVersionLoop_step_cons (tok t : Token) (ts' : List Token)
    (ver : Int) (st : Nat) (ds : List Diag) (h2 : isEOD tok = false) :
    parseVersionLoop tok (t :: ts') true ver st ds =
      parseVersionLoop t ts' (versionStep tok true ver st).1
        (versionStep tok true ver st).2.1 (versionStep tok true ver st).2.2.1
        (ds ++ (versionStep tok true ver st).2.2.2) := by
  rw [parseVersionLoop]
  simp [h2]

/-- A step that invalidates makes the whole remaining loop invalid, leaving
version and state as the failed step produced them. -/
theorem parseVersionLoop_invalid (tok : Token) (ts : List Token) (ver : Int)
    (st : Nat) (ds : List Diag) (h2 : isEOD tok = false)
    (hstep : (versionStep tok true ver st).1 = false) :
    (parseVersionLoop tok ts true ver st ds).1 = false := by
  cases ts with
  | nil => rw [parseVersionLoop_step_nil tok ver st ds h2, hstep]
  | cons t ts' =>
    rw [parseVersionLoop_step_cons tok t ts' ver st ds h2, hstep,
      parseVersionLoop_false]

/-- An invalid loop result makes `parseVersion` report failure: the handler
is not invoked and the state is unchanged. -/
theorem parseVersion_invalid (dirTok : Token) (toks : List Token) (sv : Int)
    (ms : MacroSet)
    (h : (parseVersionLoop (lexT toks).1 (lexT toks).2 true 0 0 []).1 = false) :
    (parseVersion false dirTok toks sv ms).handledVersion = none ∧
      (parseVersion false dirTok toks sv ms).shaderVersion = sv ∧
      (parseVersion false dirTok toks sv ms).macroSet = ms := by
  rcases hl : parseVersionLoop (lexT toks).1 (lexT toks).2 true 0 0 [] with
    ⟨valid, version, state, stopTok, ds⟩
  rw [hl] at h
  simp only at h
  subst h
  refine ⟨?_, ?_, ?_⟩ <;> simp [parseVersion, hl]

end PP

namespace PP

/-- After an invalidating step the loop's diagnostics are the accumulated
ones plus the failed step's. -/
theorem parseVersionLoop_invalid_diags (tok : Token) (ts : List Token)
    (ver : Int) (st : Nat) (ds : List Diag) (h2 : isEOD tok = false)
    (hstep : (versionStep tok true ver st).1 = false) :
    (parseVersionLoop tok ts true ver st ds).2.2.2.2 =
      ds ++ (versionStep tok true ver st).2.2.2 := by
  cases ts with
  | nil => rw [parseVersionLoop_step_nil tok ver st ds h2]
  | cons t ts' =>
    rw [parseVersionLoop_step_cons tok t ts' ver st ds h2, hstep,
      parseVersionLoop_false]

/-- With an invalid loop the reported diagnostics are exactly the loop's. -/
theorem parseVersion_invalid_diags (dirTok : Token) (toks : List Token)
    (sv : Int) (ms : MacroSet)
    (h : (parseVersionLoop (lexT toks).1 (lexT toks).2 true 0 0 []).1 = false) :
    (parseVersion false dirTok toks sv ms).diags =
      (parseVersionLoop (lexT toks).1 (lexT toks).2 true 0 0 []).2.2.2.2 := by
  rcases hl : parseVersionLoop (lexT toks).1 (lexT toks).2 true 0 0 [] with
    ⟨valid, version, state, stopTok, ds⟩
  rw [hl] at h
  simp only at h
  subst h
  simp [parseVersion, hl]

/-- The version passed to the handler is the loop's version field. -/
theorem parseVersion_handled_version (dirTok : Token) (toks : List Token)
    (sv : Int) (ms : MacroSet) (v : Int)
    (h : (parseVersion false dirTok toks sv ms).handledVersion = some v) :
    (parseVersionLoop (lexT toks).1 (lexT toks).2 true 0 0 []).2.1 = v := by
  rcases hl : parseVersionLoop (lexT toks).1 (lexT toks).2 true 0 0 [] with
    ⟨valid, version, state, stopTok, ds⟩
  rw [parseVersion] at h
  simp only [if_neg (by simp : ¬ (false : Bool) = true), hl] at h
  split_ifs at h with h1 h2 h3 h4 <;> simp_all

/-- In states other than `VERSION_NUMBER` the loop never changes the
version. -/
theorem parseVersionLoop_version_const (ts : List Token) :
    ∀ (tok : Token) (ver : Int) (st : Nat) (ds : List Diag), st ≠ 0 →
      (parseVersionLoop tok ts true ver st ds).2.1 = ver := by
  have hstepv : ∀ (tok : Token) (ver : Int) (st : Nat), st ≠ 0 →
      (versionStep tok true ver st).2.1 = ver ∧
        (versionStep tok true ver st).2.2.1 ≠ 0 := by
    intro tok ver st hst
    rcases st with _ | _ | st2
    · exact absurd rfl hst
    · constructor <;> simp [versionStep]
    · constructor <;> simp [versionStep]
  induction ts with
  | nil =>
    intro tok ver st ds hst
    by_cases he : isEOD tok = true
    · rw [parseVersionLoop_eod _ _ _ _ _ _ he]
    · rw [parseVersionLoop_step_nil _ _ _ _ (by simpa using he)]
      exact (hstepv tok ver st hst).1
  | cons t ts' ih =>
    intro tok ver st ds hst
    by_cases he : isEOD tok = true
    · rw [parseVersionLoop_eod _ _ _ _ _ _ he]
    · rw [parseVersionLoop_step_cons _ _ _ _ _ _ (by simpa using he)]
      rcases hb : (versionStep tok true ver st).1 with _ | _
      · rw [parseVersionLoop_false]
        exact (hstepv tok ver st hst).1
      · rw [(hstepv tok ver st hst).1]
        exact ih t ver _ _ (hstepv tok ver st hst).2

end PP

namespace PP

/-- Inversion of an accepted `#version` with value at least 300: the token
stream must be the integer token, the identifier `es`, and an
end-of-directive token on a line no later than line 1. -/
theorem parseVersion_accept_shape (dirTok : Token) (toks : List Token)
    (sv : Int) (ms : MacroSet) (v : Int)
    (hv : (parseVersion false dirTok toks sv ms).handledVersion = some v)
    (h300 : 300 ≤ v) :
    ∃ t1 t2 rest, toks = t1 :: t2 :: rest ∧ t1.ttype = .CONST_INT ∧
      t1.ival = some v ∧ t2.ttype = .IDENTIFIER ∧ t2.text = "es" ∧
      isEOD (lexT rest).1 = true ∧ (lexT rest).1.location.line ≤ 1 := by
  have hver := parseVersion_handled_version dirTok toks sv ms v hv
  cases toks with
  | nil =>
    exfalso
    have hloop := parseVersionLoop_eod lastToken [] true 0 0 []
      (by simp [isEOD, lastToken])
    simp [parseVersion, lexT, hloop] at hv
  | cons t1 ts1 =>
    by_cases he1 : isEOD t1 = true
    · exfalso
      have hloop := parseVersionLoop_eod t1 ts1 true 0 0 [] he1
      simp [parseVersion, lexT, hloop] at hv
    · have he1' : isEOD t1 = false := by simpa using he1
      by_cases hct : t1.ttype = TokType.CONST_INT
      · cases hiv : t1.ival with
        | none =>
          exfalso
          have hstep : (versionStep t1 true 0 0).1 = false := by
            simp [versionStep, hct, hiv]
          have hinv := parseVersionLoop_invalid t1 ts1 0 0 [] he1' hstep
          have hnone := (parseVersion_invalid dirTok (t1 :: ts1) sv ms
            (by simpa [lexT] using hinv)).1
          simp [hv] at hnone
        | some v1 =>
          have hstep : versionStep t1 true 0 0 =
              (true, v1, if v1 < 300 then 2 else 1, []) := by
            simp [versionStep, hct, hiv]
          by_cases h3 : v1 < 300
          · exfalso
            have hv1 : (parseVersionLoop (lexT (t1 :: ts1)).1
                (lexT (t1 :: ts1)).2 true 0 0 []).2.1 = v1 := by
              simp only [lexT]
              cases ts1 with
              | nil =>
                rw [parseVersionLoop_step_nil _ _ _ _ he1', hstep]
              | cons t2 rest =>
                rw [parseVersionLoop_step_cons _ _ _ _ _ _ he1', hstep]
                simp only [if_pos h3]
                exact parseVersionLoop_version_const rest t2 v1 2 _ (by simp)
            have hveq : v = v1 := by rw [← hver, hv1]
            omega
          · have hs1 : versionStep t1 true 0 0 = (true, v1, 1, []) := by
              rw [hstep, if_neg h3]
            cases ts1 with
            | nil =>
              exfalso
              have hloop : parseVersionLoop (lexT [t1]).1 (lexT [t1]).2
                  true 0 0 [] = (true, v1, 1, lastToken, []) := by
                simp only [lexT]
                rw [parseVersionLoop_step_nil _ _ _ _ he1', hs1]
                simp
              simp [parseVersion, hloop] at hv
            | cons t2 rest =>
              have hloop1 : parseVersionLoop (lexT (t1 :: t2 :: rest)).1
                  (lexT (t1 :: t2 :: rest)).2 true 0 0 [] =
                  parseVersionLoop t2 rest true v1 1 [] := by
                simp only [lexT]
                rw [parseVersionLoop_step_cons _ _ _ _ _ _ he1', hs1]
                simp
              by_cases he2 : isEOD t2 = true
              · exfalso
                have hloop : parseVersionLoop (lexT (t1 :: t2 :: rest)).1
                    (lexT (t1 :: t2 :: rest)).2 true 0 0 [] =
                    (true, v1, 1, t2, []) := by
                  rw [hloop1, parseVersionLoop_eod _ _ _ _ _ _ he2]
                simp [parseVersion, hloop] at hv
              · have he2' : isEOD t2 = false := by simpa using he2
                by_cases hes : t2.ttype = TokType.IDENTIFIER ∧ t2.text = "es"
                · have hstep2 : versionStep t2 true v1 1 = (true, v1, 2, []) := by
                    simp [versionStep, hes.1, hes.2]
                  cases rest with
                  | nil =>
                    have hloop : parseVersionLoop (lexT [t1, t2]).1
                        (lexT [t1, t2]).2 true 0 0 [] =
                        (true, v1, 2, lastToken, []) := by
                      rw [hloop1, parseVersionLoop_step_nil _ _ _ _ he2', hstep2]
                      simp
                    have hveq : v = v1 := by
                      rw [hloop] at hver
                      simpa using hver.symm
                    refine ⟨t1, t2, [], rfl, hct, ?_, hes.1, hes.2,
                      by simp [lexT, isEOD, lastToken], by simp [lexT, lastToken]⟩
                    rw [hiv, hveq]
                  | cons t3 rest2 =>
                    have hloop2 : parseVersionLoop (lexT (t1 :: t2 :: t3 :: rest2)).1
                        (lexT (t1 :: t2 :: t3 :: rest2)).2 true 0 0 [] =
                        parseVersionLoop t3 rest2 true v1 2 [] := by
                      rw [hloop1, parseVersionLoop_step_cons _ _ _ _ _ _ he2', hstep2]
                      simp
                    by_cases he3 : isEOD t3 = true
                    · have hloop : parseVersionLoop (lexT (t1 :: t2 :: t3 :: rest2)).1
                          (lexT (t1 :: t2 :: t3 :: rest2)).2 true 0 0 [] =
                          (true, v1, 2, t3, []) := by
                        rw [hloop2, parseVersionLoop_eod _ _ _ _ _ _ he3]
                      by_cases hl3 : 1 < t3.location.line
                      · exfalso
                        have h300' : 300 ≤ v1 := by omega
                        simp [parseVersion, hloop, hl3, h300'] at hv
                      · have hveq : v = v1 := by
                          rw [hloop] at hver
                          simpa using hver.symm
                        refine ⟨t1, t2, t3 :: rest2, rfl, hct, ?_, hes.1, hes.2,
                          by simp [lexT, he3], by simp [lexT]; omega⟩
                        rw [hiv, hveq]
                    · exfalso
                      have hstep3 : (versionStep t3 true v1 2).1 = false := by
                        simp [versionStep]
                      have hinv := parseVersionLoop_invalid t3 rest2 v1 2 []
                        (by simpa using he3) hstep3
                      have htop : (parseVersionLoop (lexT (t1 :: t2 :: t3 :: rest2)).1
                          (lexT (t1 :: t2 :: t3 :: rest2)).2 true 0 0 []).1 = false := by
                        rw [hloop2]; exact hinv
                      have hnone := (parseVersion_invalid dirTok _ sv ms htop).1
                      simp [hv] at hnone
                · exfalso
                  have hstep2 : (versionStep t2 true v1 1).1 = false := by
                    simp only [versionStep]
                    rw [if_pos hes]
                  have hinv := parseVersionLoop_invalid t2 rest v1 1 [] he2' hstep2
                  have htop : (parseVersionLoop (lexT (t1 :: t2 :: rest)).1
                      (lexT (t1 :: t2 :: rest)).2 true 0 0 []).1 = false := by
                    rw [hloop1]; exact hinv
                  have hnone := (parseVersion_invalid dirTok _ sv ms htop).1
                  simp [hv] at hnone
      · exfalso
        have hstep : (versionStep t1 true 0 0).1 = false := by
          simp [versionStep, hct]
        have hinv := parseVersionLoop_invalid t1 ts1 0 0 [] he1' hstep
        have hnone := (parseVersion_invalid dirTok (t1 :: ts1) sv ms
          (by simpa [lexT] using hinv)).1
        simp [hv] at hnone

end PP

/-- C4: a `#version` directive after the first statement is rejected with the
not-first-statement diagnostic, unprocessed (handler not invoked, state and
macro table unchanged); a version of at least 300 is accepted only when the
number token is immediately followed by the identifier `es` with the
directive ending by line 1 — and with 1-based monotone token lines this puts
all its tokens on line 1; a missing or wrong profile token, or a line beyond
1, reports a diagnostic and the handler is not invoked. -/
theorem c4_version_directive (pfs : Bool) (dirTok : PP.Token)
    (toks : List PP.Token) (sv : Int) (ms : PP.MacroSet) :
    (pfs = true →
      PP.parseVersion pfs dirTok toks sv ms =
        ⟨[⟨.PP_VERSION_NOT_FIRST_STATEMENT, dirTok.location, dirTok.text⟩],
          none, sv, ms⟩) ∧
    (∀ v, (PP.parseVersion pfs dirTok toks sv ms).handledVersion = some v →
      300 ≤ v →
      ∃ t1 t2 rest, toks = t1 :: t2 :: rest ∧ t1.ttype = .CONST_INT ∧
        t1.ival = some v ∧ t2.ttype = .IDENTIFIER ∧ t2.text = "es" ∧
        PP.isEOD (PP.lexT rest).1 = true ∧
        (PP.lexT rest).1.location.line ≤ 1) ∧
    (pfs = false → ∀ t1 ts1, toks = t1 :: ts1 →
      t1.ttype = .CONST_INT → ∀ v, t1.ival = some v → 300 ≤ v →
      ((¬((PP.lexT ts1).1.ttype = .IDENTIFIER ∧ (PP.lexT ts1).1.text = "es")) →
        (PP.parseVersion pfs dirTok toks sv ms).handledVersion = none ∧
          (PP.parseVersion pfs dirTok toks sv ms).diags ≠ []) ∧
      (∀ t2 rest, ts1 = t2 :: rest → t2.ttype = .IDENTIFIER → t2.text = "es" →
        PP.isEOD (PP.lexT rest).1 = true → 1 < (PP.lexT rest).1.location.line →
        (PP.parseVersion pfs dirTok toks sv ms).handledVersion = none ∧
          (PP.parseVersion pfs dirTok toks sv ms).diags ≠ [])) ∧
    (∀ t1 t2 rest, toks = t1 :: t2 :: rest →
      1 ≤ t1.location.line → t1.location.line ≤ t2.location.line →
      t2.location.line ≤ (PP.lexT rest).1.location.line →
      ∀ v, (PP.parseVersion pfs dirTok toks sv ms).handledVersion = some v →
        300 ≤ v →
      t1.location.line = 1 ∧ t2.location.line = 1 ∧
        (PP.lexT rest).1.location.line = 1) := by
  refine ⟨?_, ?_, ?_, ?_⟩
  · intro h
    simp [PP.parseVersion, h]
  · intro v hv h300
    cases pfs with
    | true => simp [PP.parseVersion] at hv
    | false => exact PP.parseVersion_accept_shape dirTok toks sv ms v hv h300
  · rintro hpfs t1 ts1 rfl hct v hiv h300
    subst hpfs
    have he1' : PP.isEOD t1 = false := by simp [PP.isEOD, hct]
    have hstep : PP.versionStep t1 true 0 0 = (true, v, 1, []) := by
      simp [PP.versionStep, hct, hiv, show ¬ v < 300 by omega]
    constructor
    · intro hnotes
      cases ts1 with
      | nil =>
        have hloop : PP.parseVersionLoop (PP.lexT [t1]).1 (PP.lexT [t1]).2
            true 0 0 [] = (true, v, 1, PP.lastToken, []) := by
          simp only [PP.lexT]
          rw [PP.parseVersionLoop_step_nil _ _ _ _ he1', hstep]
          simp
        constructor <;> simp [PP.parseVersion, hloop]
      | cons t2 rest =>
        have hloop1 : PP.parseVersionLoop (PP.lexT (t1 :: t2 :: rest)).1
            (PP.lexT (t1 :: t2 :: rest)).2 true 0 0 [] =
            PP.parseVersionLoop t2 rest true v 1 [] := by
          simp only [PP.lexT]
          rw [PP.parseVersionLoop_step_cons _ _ _ _ _ _ he1', hstep]
          simp
        by_cases he2 : PP.isEOD t2 = true
        · have hloop : PP.parseVersionLoop (PP.lexT (t1 :: t2 :: rest)).1
              (PP.lexT (t1 :: t2 :: rest)).2 true 0 0 [] =
              (true, v, 1, t2, []) := by
            rw [hloop1, PP.parseVersionLoop_eod _ _ _ _ _ _ he2]
          constructor <;> simp [PP.parseVersion, hloop]
        · have he2' : PP.isEOD t2 = false := by simpa using he2
          have hnotes2 : ¬(t2.ttype = PP.TokType.IDENTIFIER ∧ t2.text = "es") := by
            simpa [PP.lexT] using hnotes
          have hstep2 : (PP.versionStep t2 true v 1).1 = false := by
            simp only [PP.versionStep]
            rw [if_pos hnotes2]
          have hinv := PP.parseVersionLoop_invalid t2 rest v 1 [] he2' hstep2
          have htop : (PP.parseVersionLoop (PP.lexT (t1 :: t2 :: rest)).1
              (PP.lexT (t1 :: t2 :: rest)).2 true 0 0 []).1 = false := by
            rw [hloop1]; exact hinv
          refine ⟨(PP.parseVersion_invalid dirTok _ sv ms htop).1, ?_⟩
          rw [PP.parseVersion_invalid_diags dirTok _ sv ms htop, hloop1,
            PP.parseVersionLoop_invalid_diags t2 rest v 1 [] he2' hstep2]
          simp only [PP.versionStep]
          rw [if_pos hnotes2]
          simp
    · rintro t2 rest rfl hid2 hes2 heod3 hline3
      have hloop1 : PP.parseVersionLoop (PP.lexT (t1 :: t2 :: rest)).1
          (PP.lexT (t1 :: t2 :: rest)).2 true 0 0 [] =
          PP.parseVersionLoop t2 rest true v 1 [] := by
        simp only [PP.lexT]
        rw [PP.parseVersionLoop_step_cons _ _ _ _ _ _ he1', hstep]
        simp
      have he2' : PP.isEOD t2 = false := by simp [PP.isEOD, hid2]
      have hstep2 : PP.versionStep t2 true v 1 = (true, v, 2, []) := by
        simp [PP.versionStep, hid2, hes2]
      cases rest with
      | nil => simp [PP.lexT, PP.lastToken] at hline3
      | cons t3 rest2 =>
        simp only [PP.lexT] at heod3 hline3
        have hloop : PP.parseVersionLoop (PP.lexT (t1 :: t2 :: t3 :: rest2)).1
            (PP.lexT (t1 :: t2 :: t3 :: rest2)).2 true 0 0 [] =
            (true, v, 2, t3, []) := by
          rw [hloop1, PP.parseVersionLoop_step_cons _ _ _ _ _ _ he2', hstep2]
          simp only [List.nil_append]
          rw [PP.parseVersionLoop_eod _ _ _ _ _ _ heod3]
        constructor <;> simp [PP.parseVersion, hloop, hline3, h300]
  · rintro t1 t2 rest rfl hl1 hl12 hl2r v hv h300
    rcases (by
      cases pfs with
      | true => simp [PP.parseVersion] at hv
      | false => exact PP.parseVersion_accept_shape dirTok _ sv ms v hv h300 :
        ∃ t1' t2' rest', t1 :: t2 :: rest = t1' :: t2' :: rest' ∧
          t1'.ttype = .CONST_INT ∧ t1'.ival = some v ∧
          t2'.ttype = .IDENTIFIER ∧ t2'.text = "es" ∧
          PP.isEOD (PP.lexT rest').1 = true ∧
          (PP.lexT rest').1.location.line ≤ 1) with ⟨t1', t2', rest', heq, _, _, _, _, _, hline⟩
    injection heq with h1 heq2
    injection heq2 with h2 h3
    subst h1; subst h2; subst h3
    refine ⟨by omega, by omega, by omega⟩

/-- Witness for C4: `#version 300 es` on line 1 is accepted, and the
acceptance-shape clause applies at it. -/
theorem c4_witness :
    ((PP.parseVersion false (⟨.IDENTIFIER, "version", ⟨0, 1⟩, true, none⟩ : PP.Token)
        [⟨.CONST_INT, "300", ⟨0, 1⟩, true, some 300⟩,
         ⟨.IDENTIFIER, "es", ⟨0, 1⟩, true, none⟩,
         ⟨.punct '\n', "", ⟨0, 1⟩, false, none⟩] 100 []).handledVersion =
      some 300 ∧
    (300 : Int) ≤ 300 ∧
    ∃ t1 t2 rest,
      ([⟨.CONST_INT, "300", ⟨0, 1⟩, true, some 300⟩,
        ⟨.IDENTIFIER, "es", ⟨0, 1⟩, true, none⟩,
        ⟨.punct '\n', "", ⟨0, 1⟩, false, none⟩] : List PP.Token) =
          t1 :: t2 :: rest ∧
        t1.ttype = .CONST_INT ∧ t1.ival = some 300 ∧
        t2.ttype = .IDENTIFIER ∧ t2.text = "es" ∧
        PP.isEOD (PP.lexT rest).1 = true ∧
        (PP.lexT rest).1.location.line ≤ 1) :=
  ⟨rfl, by norm_num,
    (c4_version_directive false ⟨.IDENTIFIER, "version", ⟨0, 1⟩, true, none⟩
        [⟨.CONST_INT, "300", ⟨0, 1⟩, true, some 300⟩,
         ⟨.IDENTIFIER, "es", ⟨0, 1⟩, true, none⟩,
         ⟨.punct '\n', "", ⟨0, 1⟩, false, none⟩] 100 []).2.1 300 rfl
      (by norm_num)⟩

namespace PPInput

/-- `INT_MAX` (climits). -/
def INT_MAX : Int := 2147483647

/-- `pp::Input`'s read position, represented by the characters at and after
`mReadLoc`: the head list is the unread suffix of the current string, the
tail the strings after it. `sIndex ≥ mCount` corresponds to `[]`. -/
abbrev InputState := List (List Char)

/-- Every (remaining) input string is nonempty — the domain on which the
source never dereferences past an explicit length. -/
def allNonempty (st : InputState) : Prop := ∀ s ∈ st, s ≠ []

/-- The remaining character stream. -/
def flat (st : InputState) : List Char := st.flatten

/-- The character at the read position (`*(mString[sIndex] + cIndex)`). -/
def curChar : InputState → Option Char
  | [] => none
  | s :: _ => s.head?

/-- `Input::skipChar` (Input.cpp:40-57): advance one character, moving to
the next string at the end of the current one; a `nullptr` return
corresponds to the resulting state being past the last string. -/
def skipChar : InputState → InputState
  | [] => []
  | s :: rest =>
    match s with
    | [] => rest
    | [_] => rest
    | _ :: c :: cs => (c :: cs) :: rest

/-- Index of the first backslash, as scanned by the for loop of
Input.cpp:110-120. -/
def bsIdx : List Char → Option Nat
  | [] => none
  | c :: r => if c = '\\' then some 0 else (bsIdx r).map (· + 1)

/-- The while loop of `Input::read` (Input.cpp:105-131): copy per-string
chunks of at most `maxSize` characters, stopping right before a backslash
(which shrinks `maxRead` to the bytes already copied, as in the source).
The copied bytes are returned instead of being written to `buf`. -/
def readLoop : Nat → InputState → Nat → Nat → Nat → List Char × InputState
  | 0, st, _, _, _ => ([], st)
  | fuel + 1, st, nRead, maxRead, maxSize =>
    if nRead < maxRead then
      match st with
      | [] => ([], [])
      | s :: rest =>
        let size1 := min s.length maxSize
        let p : Nat × Nat :=
          match bsIdx (s.take size1) with
          | some i => (i, nRead + i)
          | none => (size1, maxRead)
        let chunk := s.take p.1
        let s' := s.drop p.1
        let st' := if s'.isEmpty then rest else s' :: rest
        let r := readLoop fuel st' (nRead + p.1) p.2 maxSize
        (chunk ++ r.1, r.2)
    else ([], st)

/-- The result of one `Input::read` call: the bytes written to the caller's
buffer, the new read position, and the line counter. -/
structure ReadResult where
  out : List Char
  state : InputState
  line : Int
  deriving DecidableEq, Repr

/-- `Input::read` (Input.cpp:59-134): the line-continuation check at the
current position (collapsing `\ LF`, `\ CR LF` and `\ CR`, incrementing the
line number, or faking EOF — returning zero bytes — when the increment
would overflow `INT_MAX`), followed by the copy loop. -/
def read (st : InputState) (maxSize : Nat) (lineNo : Int) : ReadResult :=
  let pre : List Char × InputState × Int × Bool :=
    if st ≠ [] ∧ 0 < maxSize then
      if curChar st = some '\\' then
        let st1 := skipChar st
        if curChar st1 = some '\n' then
          let st2 := skipChar st1
          if lineNo = INT_MAX then ([], st2, lineNo, true)
          else ([], st2, lineNo + 1, false)
        else if curChar st1 = some '\r' then
          let st2 := skipChar st1
          let st3 := if curChar st2 = some '\n' then skipChar st2 else st2
          if lineNo = INT_MAX then ([], st3, lineNo, true)
          else ([], st3, lineNo + 1, false)
        else (['\\'], st1, lineNo, false)
      else ([], st, lineNo, false)
    else ([], st, lineNo, false)
  if pre.2.2.2 then ⟨[], pre.2.1, pre.2.2.1⟩
  else
    let r := readLoop ((flat pre.2.1).length + pre.2.1.length + 2) pre.2.1
      pre.1.length maxSize maxSize
    ⟨pre.1 ++ r.1, r.2, pre.2.2.1⟩

/-- A sequence of `read` calls with per-call buffer sizes `ms`, driven until
the input is exhausted; returns the concatenated stream delivered to the
caller and the final line number. -/
def readSeq : List Nat → InputState → Int → List Char × Int
  | [], _, line => ([], line)
  | m :: ms, st, line =>
    if st = [] then ([], line)
    else
      let r := read st m line
      let q := readSeq ms r.state r.line
      (r.out ++ q.1, q.2)

/-- The line-continuation collapse described by the specification: `\ LF`,
`\ CR LF` and `\ CR` disappear from the stream; the second component counts
the removed continuations. Written from the claim's words, to be compared
with the reader. -/
def collapseLC : List Char → List Char × Nat
  | [] => ([], 0)
  | c :: r =>
    if c = '\\' then
      match r with
      | [] => ([c], 0)
      | c2 :: r2 =>
        if c2 = '\n' then ((collapseLC r2).1, (collapseLC r2).2 + 1)
        else if c2 = '\r' then
          match r2 with
          | [] => ([], 1)
          | c3 :: r3 =>
            if c3 = '\n' then ((collapseLC r3).1, (collapseLC r3).2 + 1)
            else ((collapseLC (c3 :: r3)).1, (collapseLC (c3 :: r3)).2 + 1)
        else (c :: (collapseLC (c2 :: r2)).1, (collapseLC (c2 :: r2)).2)
    else (c :: (collapseLC r).1, (collapseLC r).2)

end PPInput

namespace PPInput

theorem flat_cons (s : List Char) (rest : InputState) :
    flat (s :: rest) = s ++ flat rest := rfl

theorem curChar_flat (st : InputState) (h : allNonempty st) :
    curChar st = (flat st).head? := by
  cases st with
  | nil => rfl
  | cons s rest =>
    have hs : s ≠ [] := h s (by simp)
    cases s with
    | nil => exact absurd rfl hs
    | cons a s' => simp [curChar, flat]

theorem flat_ne_nil (st : InputState) (h : allNonempty st) (hne : st ≠ []) :
    flat st ≠ [] := by
  cases st with
  | nil => exact absurd rfl hne
  | cons s rest =>
    have hs : s ≠ [] := h s (by simp)
    cases s with
    | nil => exact absurd rfl hs
    | cons a s' => simp [flat]

theorem skipChar_allNonempty (st : InputState) (h : allNonempty st) :
    allNonempty (skipChar st) := by
  cases st with
  | nil => exact h
  | cons s rest =>
    cases s with
    | nil =>
      intro x hx
      simp only [skipChar] at hx
      exact h x (List.mem_cons_of_mem _ hx)
    | cons a s' =>
      cases s' with
      | nil =>
        intro x hx
        simp only [skipChar] at hx
        exact h x (List.mem_cons_of_mem _ hx)
      | cons c cs =>
        intro x hx
        simp only [skipChar] at hx
        rcases List.mem_cons.mp hx with rfl | hx'
        · simp
        · exact h x (List.mem_cons_of_mem _ hx')

theorem skipChar_flat (st : InputState) (h : allNonempty st) (a : Char)
    (ha : curChar st = some a) : flat st = a :: flat (skipChar st) := by
  cases st with
  | nil => simp [curChar] at ha
  | cons s rest =>
    cases s with
    | nil => simp [curChar] at ha
    | cons b s' =>
      have hb : b = a := by simpa [curChar] using ha
      subst hb
      cases s' with
      | nil => simp [flat, skipChar]
      | cons c cs => simp [flat, skipChar]

theorem bsIdx_none_not_mem (s : List Char) (h : bsIdx s = none) : '\\' ∉ s := by
  induction s with
  | nil => simp
  | cons c r ih =>
    rw [bsIdx] at h
    by_cases hc : c = '\\'
    · simp [hc] at h
    · rw [if_neg hc] at h
      cases hbr : bsIdx r with
      | some j => rw [hbr] at h; simp at h
      | none =>
        intro hmem
        rcases List.mem_cons.mp hmem with heq | hmem'
        · exact hc heq.symm
        · exact ih hbr hmem'

theorem bsIdx_some_le (s : List Char) (i : Nat) (h : bsIdx s = some i) :
    i ≤ s.length := by
  induction s generalizing i with
  | nil => simp [bsIdx] at h
  | cons c r ih =>
    rw [bsIdx] at h
    by_cases hc : c = '\\'
    · rw [if_pos hc] at h
      have : i = 0 := by simpa using h.symm
      omega
    · rw [if_neg hc] at h
      cases hbr : bsIdx r with
      | none => rw [hbr] at h; simp at h
      | some j =>
        rw [hbr] at h
        have hj : j + 1 = i := by simpa using h
        have := ih j hbr
        simp only [List.length_cons]
        omega

theorem bsIdx_some_take (s : List Char) (i : Nat) (h : bsIdx s = some i) :
    '\\' ∉ s.take i := by
  induction s generalizing i with
  | nil => simp
  | cons c r ih =>
    rw [bsIdx] at h
    by_cases hc : c = '\\'
    · rw [if_pos hc] at h
      have : i = 0 := by simpa using h.symm
      subst this
      simp
    · rw [if_neg hc] at h
      cases hbr : bsIdx r with
      | none => rw [hbr] at h; simp at h
      | some j =>
        rw [hbr] at h
        have hj : j + 1 = i := by simpa using h
        subst hj
        simp only [List.take_succ_cons, List.mem_cons]
        rintro (heq | hmem)
        · exact hc heq.symm
        · exact ih j hbr hmem

theorem bsIdx_head_ne (s : List Char) (c : Char) (hh : s.head? = some c)
    (hc : c ≠ '\\') (i : Nat) (h : bsIdx s = some i) : 1 ≤ i := by
  cases s with
  | nil => simp at hh
  | cons b r =>
    have hb : b = c := by simpa using hh
    subst hb
    rw [bsIdx, if_neg hc] at h
    cases hbr : bsIdx r with
    | none => rw [hbr] at h; simp at h
    | some j =>
      rw [hbr] at h
      have : j + 1 = i := by simpa using h
      omega

theorem collapseLC_nil : collapseLC [] = ([], 0) := rfl

theorem collapseLC_other (c : Char) (r : List Char) (hc : c ≠ '\\') :
    collapseLC (c :: r) = (c :: (collapseLC r).1, (collapseLC r).2) := by
  rw [collapseLC.eq_def]
  simp only [if_neg hc]

theorem collapseLC_bs_nil : collapseLC ['\\'] = (['\\'], 0) := by
  rw [collapseLC.eq_def]; rfl

theorem collapseLC_bs_lf (r : List Char) :
    collapseLC ('\\' :: '\n' :: r) = ((collapseLC r).1, (collapseLC r).2 + 1) := by
  rw [collapseLC.eq_def]; simp

theorem collapseLC_bs_cr_lf (r : List Char) :
    collapseLC ('\\' :: '\r' :: '\n' :: r) =
      ((collapseLC r).1, (collapseLC r).2 + 1) := by
  rw [collapseLC.eq_def]; simp

theorem collapseLC_bs_cr_nil : collapseLC ['\\', '\r'] = ([], 1) := by
  rw [collapseLC.eq_def]; rfl

theorem collapseLC_bs_cr_other (c3 : Char) (r3 : List Char) (h : c3 ≠ '\n') :
    collapseLC ('\\' :: '\r' :: c3 :: r3) =
      ((collapseLC (c3 :: r3)).1, (collapseLC (c3 :: r3)).2 + 1) := by
  rw [collapseLC.eq_def]; simp [h]

theorem collapseLC_bs_other (c2 : Char) (r2 : List Char) (h1 : c2 ≠ '\n')
    (h2 : c2 ≠ '\r') :
    collapseLC ('\\' :: c2 :: r2) =
      ('\\' :: (collapseLC (c2 :: r2)).1, (collapseLC (c2 :: r2)).2) := by
  rw [collapseLC.eq_def]; simp [h1, h2]

theorem collapseLC_bsfree_append (P q : List Char) (h : '\\' ∉ P) :
    collapseLC (P ++ q) = (P ++ (collapseLC q).1, (collapseLC q).2) := by
  induction P with
  | nil => simp
  | cons c P' ih =>
    have hc : c ≠ '\\' := fun h' => h (by simp [h'])
    have hP' : '\\' ∉ P' := fun hm => h (by simp [hm])
    rw [List.cons_append, collapseLC_other c (P' ++ q) hc, ih hP']
    simp

end PPInput

namespace PPInput

theorem flat_after_drop (s : List Char) (rest : InputState) (k : Nat) :
    flat (if (s.drop k).isEmpty then rest else s.drop k :: rest) =
      s.drop k ++ flat rest := by
  split
  · next hemp =>
    rw [List.isEmpty_iff] at hemp
    simp [hemp]
  · simp [flat_cons]

theorem allNonempty_after_drop (s : List Char) (rest : InputState) (k : Nat)
    (h : allNonempty (s :: rest)) :
    allNonempty (if (s.drop k).isEmpty then rest else s.drop k :: rest) := by
  split
  · exact fun x hx => h x (List.mem_cons_of_mem _ hx)
  · next hemp =>
    intro x hx
    rcases List.mem_cons.mp hx with rfl | hx'
    · rw [List.isEmpty_iff] at hemp
      exact hemp
    · exact h x (List.mem_cons_of_mem _ hx')

theorem readLoop_spec (fuel : Nat) :
    ∀ (st : InputState) (nRead maxRead maxSize : Nat), allNonempty st →
      (readLoop fuel st nRead maxRead maxSize).1 ++
          flat (readLoop fuel st nRead maxRead maxSize).2 = flat st ∧
      allNonempty (readLoop fuel st nRead maxRead maxSize).2 ∧
      '\\' ∉ (readLoop fuel st nRead maxRead maxSize).1 ∧
      (1 ≤ fuel → nRead < maxRead → 1 ≤ maxSize →
        ∀ c, (flat st).head? = some c → c ≠ '\\' →
          (readLoop fuel st nRead maxRead maxSize).1 ≠ []) := by
  induction fuel with
  | zero =>
    intro st nRead maxRead maxSize hne
    refine ⟨by simp [readLoop], by simpa [readLoop] using hne, by simp [readLoop], ?_⟩
    intro h0
    omega
  | succ fuel ih =>
    intro st nRead maxRead maxSize hne
    by_cases hlt : nRead < maxRead
    · cases st with
      | nil =>
        refine ⟨by simp [readLoop, hlt, flat], by simp [readLoop, hlt, allNonempty],
          by simp [readLoop, hlt], ?_⟩
        intro _ _ _ c hc
        simp [flat] at hc
      | cons s rest =>
        have hs : s ≠ [] := hne s (by simp)
        have hrl : readLoop (fuel + 1) (s :: rest) nRead maxRead maxSize =
            (let size1 := min s.length maxSize
             let p : Nat × Nat :=
               match bsIdx (s.take size1) with
               | some i => (i, nRead + i)
               | none => (size1, maxRead)
             let chunk := s.take p.1
             let s' := s.drop p.1
             let st' := if s'.isEmpty then rest else s' :: rest
             let r := readLoop fuel st' (nRead + p.1) p.2 maxSize
             (chunk ++ r.1, r.2)) := by
          simp only [readLoop, if_pos hlt]
        cases hbs : bsIdx (s.take (min s.length maxSize)) with
        | some i =>
          simp only [hbs] at hrl
          set st' := if (s.drop i).isEmpty then rest else s.drop i :: rest with hst'
          have hne' : allNonempty st' := allNonempty_after_drop s rest i hne
          obtain ⟨ih1, ih2, ih3, ih4⟩ := ih st' (nRead + i) (nRead + i) maxSize hne'
          have hi_le : i ≤ min s.length maxSize := by
            have := bsIdx_some_le _ _ hbs
            simpa using this
          have hchunkfree : '\\' ∉ s.take i := by
            have := bsIdx_some_take _ _ hbs
            rwa [List.take_take, min_eq_left hi_le] at this
          have hflat' : flat st' = s.drop i ++ flat rest := flat_after_drop s rest i
          refine ⟨?_, ?_, ?_, ?_⟩
          · rw [hrl]
            simp only [flat_cons]
            rw [List.append_assoc, ih1, hflat', ← List.append_assoc,
              List.take_append_drop]
          · rw [hrl]; exact ih2
          · rw [hrl]
            simp only [List.mem_append]
            rintro (hm | hm)
            · exact hchunkfree hm
            · exact ih3 hm
          · intro _ _ hms c hc hcbs
            rw [hrl]
            have hhead : s.head? = some c := by
              cases s with
              | nil => exact absurd rfl hs
              | cons a s2 => simpa [flat_cons] using hc
            have hsz : 1 ≤ min s.length maxSize := by
              have : 1 ≤ s.length := by
                cases s with
                | nil => exact absurd rfl hs
                | cons a s2 => simp
              omega
            have hhead' : (s.take (min s.length maxSize)).head? = some c := by
              cases s with
              | nil => exact absurd rfl hs
              | cons a s2 =>
                rcases Nat.exists_eq_add_of_le hsz with ⟨k, hk⟩
                rw [hk, Nat.add_comm 1 k]
                simpa using hhead
            have hige := bsIdx_head_ne _ c hhead' hcbs i hbs
            have : s.take i ≠ [] := by
              cases s with
              | nil => exact absurd rfl hs
              | cons a s2 =>
                rcases Nat.exists_eq_add_of_le hige with ⟨k, hk⟩
                rw [hk, Nat.add_comm 1 k]
                simp
            simp only [ne_eq, List.append_eq_nil]
            intro hcontra
            exact this hcontra.1
        | none =>
          simp only [hbs] at hrl
          set sz := min s.length maxSize with hsz
          set st' := if (s.drop sz).isEmpty then rest else s.drop sz :: rest with hst'
          have hne' : allNonempty st' := allNonempty_after_drop s rest sz hne
          obtain ⟨ih1, ih2, ih3, ih4⟩ := ih st' (nRead + sz) maxRead maxSize hne'
          have hchunkfree : '\\' ∉ s.take sz := bsIdx_none_not_mem _ hbs
          have hflat' : flat st' = s.drop sz ++ flat rest := flat_after_drop s rest sz
          refine ⟨?_, ?_, ?_, ?_⟩
          · rw [hrl]
            simp only [flat_cons]
            rw [List.append_assoc, ih1, hflat', ← List.append_assoc,
              List.take_append_drop]
          · rw [hrl]; exact ih2
          · rw [hrl]
            simp only [List.mem_append]
            rintro (hm | hm)
            · exact hchunkfree hm
            · exact ih3 hm
          · intro _ _ hms c hc hcbs
            rw [hrl]
            have h1 : 1 ≤ sz := by
              have : 1 ≤ s.length := by
                cases s with
                | nil => exact absurd rfl hs
                | cons a s2 => simp
              omega
            have : s.take sz ≠ [] := by
              cases s with
              | nil => exact absurd rfl hs
              | cons a s2 =>
                rcases Nat.exists_eq_add_of_le h1 with ⟨k, hk⟩
                rw [hk, Nat.add_comm 1 k]
                simp
            simp only [ne_eq, List.append_eq_nil]
            intro hcontra
            exact this hcontra.1
    · refine ⟨by simp [readLoop, hlt], by simpa [readLoop, hlt] using hne,
        by simp [readLoop, hlt], ?_⟩
      intro _ hcon
      omega

end PPInput

namespace PPInput

/-- One `read` call: the new state keeps the invariant, at least one
character is consumed, and the output together with the collapse of the
remaining stream is the collapse of the old stream — with the line counter
advanced exactly by the number of removed continuations (0 or 1). -/
theorem read_step (st : InputState) (maxSize : Nat) (line : Int)
    (hne : allNonempty st) (hst : st ≠ []) (hm : 1 ≤ maxSize)
    (hline : line + ((collapseLC (flat st)).2 : Int) ≤ INT_MAX) :
    allNonempty (read st maxSize line).state ∧
    (flat (read st maxSize line).state).length < (flat st).length ∧
    ∃ k : Nat,
      (read st maxSize line).line = line + k ∧
      (collapseLC (flat st)).1 =
        (read st maxSize line).out ++
          (collapseLC (flat (read st maxSize line).state)).1 ∧
      (collapseLC (flat st)).2 = k + (collapseLC (flat (read st maxSize line).state)).2 := by
  have hflatne : flat st ≠ [] := flat_ne_nil st hne hst
  obtain ⟨c, hc⟩ : ∃ c, curChar st = some c := by
    rw [curChar_flat st hne]
    cases hf : flat st with
    | nil => exact absurd hf hflatne
    | cons a r => exact ⟨a, by simp⟩
  have hcondA : (st ≠ [] ∧ 0 < maxSize) := ⟨hst, by omega⟩
  by_cases hcb : c = '\\'
  · subst hcb
    have hflat : flat st = '\\' :: flat (skipChar st) := skipChar_flat st hne _ hc
    have hne1 : allNonempty (skipChar st) := skipChar_allNonempty st hne
    cases hc1 : curChar (skipChar st) with
    | none =>
      have hst1 : skipChar st = [] := by
        cases hs1 : skipChar st with
        | nil => rfl
        | cons s rest =>
          rw [hs1] at hc1
          have : s ≠ [] := (hs1 ▸ hne1) s (by simp)
          cases s with
          | nil => exact absurd rfl this
          | cons a s' => simp [curChar] at hc1
      have hflat2 : flat st = ['\\'] := by rw [hflat, hst1]; rfl
      have hread : read st maxSize line = ⟨['\\'], [], line⟩ := by
        simp only [read, if_pos hcondA, hc, hst1]
        simp [readLoop, curChar, flat]
      rw [hread, hflat2]
      refine ⟨by intro x hx; simp at hx, by simp [flat], 0, by simp, ?_, ?_⟩
      · simp [collapseLC_bs_nil, flat, collapseLC_nil]
      · simp [collapseLC_bs_nil, flat, collapseLC_nil]
    | some c2 =>
      have hflat1 : flat (skipChar st) = c2 :: flat (skipChar (skipChar st)) :=
        skipChar_flat _ hne1 _ hc1
      have hne2 : allNonempty (skipChar (skipChar st)) :=
        skipChar_allNonempty _ hne1
      by_cases hlf : c2 = '\n'
      · subst hlf
        have hcount : (collapseLC (flat st)).2 =
            (collapseLC (flat (skipChar (skipChar st)))).2 + 1 := by
          rw [hflat, hflat1, collapseLC_bs_lf]
        have hnotmax : ¬ line = INT_MAX := by
          rw [hcount] at hline
          push_cast at hline
          omega
        obtain ⟨hP1, hP2, hP3, _⟩ := readLoop_spec
          ((flat (skipChar (skipChar st))).length + (skipChar (skipChar st)).length + 2)
          (skipChar (skipChar st)) 0 maxSize maxSize hne2
        rcases hPQ : readLoop
            ((flat (skipChar (skipChar st))).length + (skipChar (skipChar st)).length + 2)
            (skipChar (skipChar st)) 0 maxSize maxSize with ⟨P, Q⟩
        rw [hPQ] at hP1 hP2 hP3
        simp only at hP1 hP2 hP3
        have hread : read st maxSize line = ⟨P, Q, line + 1⟩ := by
          simp only [read, if_pos hcondA, hc, hc1, if_neg hnotmax]
          simp [hPQ]
        have hdecomp : collapseLC (flat (skipChar (skipChar st))) =
            (P ++ (collapseLC (flat Q)).1, (collapseLC (flat Q)).2) := by
          rw [← hP1, collapseLC_bsfree_append _ _ hP3]
        rw [hread]
        dsimp only
        refine ⟨hP2, ?_, 1, by simp, ?_, ?_⟩
        · have := congrArg List.length hP1
          rw [hflat, hflat1]
          simp only [List.length_append] at this
          simp only [List.length_cons]
          omega
        · rw [hflat, hflat1, collapseLC_bs_lf, hdecomp]
        · rw [hflat, hflat1, collapseLC_bs_lf, hdecomp]
          omega
      · by_cases hcr : c2 = '\r'
        · subst hcr
          cases hc2 : curChar (skipChar (skipChar st)) with
          | some c3 =>
            have hflat2 : flat (skipChar (skipChar st)) =
                c3 :: flat (skipChar (skipChar (skipChar st))) :=
              skipChar_flat _ hne2 _ hc2
            have hne3 : allNonempty (skipChar (skipChar (skipChar st))) :=
              skipChar_allNonempty _ hne2
            by_cases hlf3 : c3 = '\n'
            · subst hlf3
              have hcount : (collapseLC (flat st)).2 =
                  (collapseLC (flat (skipChar (skipChar (skipChar st))))).2 + 1 := by
                rw [hflat, hflat1, hflat2, collapseLC_bs_cr_lf]
              have hnotmax : ¬ line = INT_MAX := by
                rw [hcount] at hline
                push_cast at hline
                omega
              obtain ⟨hP1, hP2, hP3, _⟩ := readLoop_spec
                ((flat (skipChar (skipChar (skipChar st)))).length +
                  (skipChar (skipChar (skipChar st))).length + 2)
                (skipChar (skipChar (skipChar st))) 0 maxSize maxSize hne3
              rcases hPQ : readLoop
                  ((flat (skipChar (skipChar (skipChar st)))).length +
                    (skipChar (skipChar (skipChar st))).length + 2)
                  (skipChar (skipChar (skipChar st))) 0 maxSize maxSize with ⟨P, Q⟩
              rw [hPQ] at hP1 hP2 hP3
              simp only at hP1 hP2 hP3
              have hread : read st maxSize line = ⟨P, Q, line + 1⟩ := by
                simp only [read, if_pos hcondA, hc, hc1, hc2, if_neg hnotmax]
                simp [hPQ]
              have hdecomp : collapseLC (flat (skipChar (skipChar (skipChar st)))) =
                  (P ++ (collapseLC (flat Q)).1, (collapseLC (flat Q)).2) := by
                rw [← hP1, collapseLC_bsfree_append _ _ hP3]
              rw [hread]
              dsimp only
              refine ⟨hP2, ?_, 1, by simp, ?_, ?_⟩
              · have := congrArg List.length hP1
                rw [hflat, hflat1, hflat2]
                simp only [List.length_append] at this
                simp only [List.length_cons]
                omega
              · rw [hflat, hflat1, hflat2, collapseLC_bs_cr_lf, hdecomp]
              · rw [hflat, hflat1, hflat2, collapseLC_bs_cr_lf, hdecomp]
                omega
            · have hcount : (collapseLC (flat st)).2 =
                  (collapseLC (flat (skipChar (skipChar st)))).2 + 1 := by
                rw [hflat, hflat1, hflat2, collapseLC_bs_cr_other c3 _ hlf3,
                  ← hflat2]
              have hnotmax : ¬ line = INT_MAX := by
                rw [hcount] at hline
                push_cast at hline
                omega
              have hc2ne : ¬ curChar (skipChar (skipChar st)) = some '\n' := by
                rw [hc2]
                simp [hlf3]
              obtain ⟨hP1, hP2, hP3, _⟩ := readLoop_spec
                ((flat (skipChar (skipChar st))).length +
                  (skipChar (skipChar st)).length + 2)
                (skipChar (skipChar st)) 0 maxSize maxSize hne2
              rcases hPQ : readLoop
                  ((flat (skipChar (skipChar st))).length +
                    (skipChar (skipChar st)).length + 2)
                  (skipChar (skipChar st)) 0 maxSize maxSize with ⟨P, Q⟩
              rw [hPQ] at hP1 hP2 hP3
              simp only at hP1 hP2 hP3
              have hread : read st maxSize line = ⟨P, Q, line + 1⟩ := by
                simp only [read, if_pos hcondA, hc, hc1, if_neg hc2ne,
                  if_neg hnotmax]
                simp [hPQ]
              have hdecomp : collapseLC (flat (skipChar (skipChar st))) =
                  (P ++ (collapseLC (flat Q)).1, (collapseLC (flat Q)).2) := by
                rw [← hP1, collapseLC_bsfree_append _ _ hP3]
              rw [hread]
              dsimp only
              refine ⟨hP2, ?_, 1, by simp, ?_, ?_⟩
              · have := congrArg List.length hP1
                rw [hflat, hflat1]
                simp only [List.length_append] at this
                simp only [List.length_cons]
                omega
              · rw [hflat, hflat1, hflat2, collapseLC_bs_cr_other c3 _ hlf3,
                  ← hflat2, hdecomp]
              · rw [hflat, hflat1, hflat2, collapseLC_bs_cr_other c3 _ hlf3,
                  ← hflat2, hdecomp]
                omega
          | none =>
            have hst2 : skipChar (skipChar st) = [] := by
              cases hs2 : skipChar (skipChar st) with
              | nil => rfl
              | cons s rest =>
                rw [hs2] at hc2
                have : s ≠ [] := (hs2 ▸ hne2) s (by simp)
                cases s with
                | nil => exact absurd rfl this
                | cons a s' => simp [curChar] at hc2
            have hflat2 : flat st = ['\\', '\r'] := by
              rw [hflat, hflat1, hst2]; rfl
            have hcount : (collapseLC (flat st)).2 = 1 := by
              rw [hflat2, collapseLC_bs_cr_nil]
            have hnotmax : ¬ line = INT_MAX := by
              rw [hcount] at hline
              push_cast at hline
              omega
            have hc2ne : ¬ curChar (skipChar (skipChar st)) = some '\n' := by
              rw [hc2]
              simp
            have hread : read st maxSize line = ⟨[], [], line + 1⟩ := by
              simp only [read, if_pos hcondA, hc, hc1, if_neg hc2ne,
                if_neg hnotmax, hst2]
              simp [readLoop, flat, curChar, skipChar]
            rw [hread, hflat2]
            refine ⟨by intro x hx; simp at hx, by simp [flat], 1, by simp, ?_, ?_⟩
            · simp [collapseLC_bs_cr_nil, flat, collapseLC_nil]
            · simp [collapseLC_bs_cr_nil, flat, collapseLC_nil]
        · have hc1ne : ¬ curChar (skipChar st) = some '\n' := by
            rw [hc1]; simp [hlf]
          have hc1ne' : ¬ curChar (skipChar st) = some '\r' := by
            rw [hc1]; simp [hcr]
          obtain ⟨hP1, hP2, hP3, _⟩ := readLoop_spec
            ((flat (skipChar st)).length + (skipChar st).length + 2)
            (skipChar st) 1 maxSize maxSize hne1
          rcases hPQ : readLoop
              ((flat (skipChar st)).length + (skipChar st).length + 2)
              (skipChar st) 1 maxSize maxSize with ⟨P, Q⟩
          rw [hPQ] at hP1 hP2 hP3
          simp only at hP1 hP2 hP3
          have hread : read st maxSize line = ⟨'\\' :: P, Q, line⟩ := by
            simp only [read, if_pos hcondA, hc, if_neg hc1ne, if_neg hc1ne']
            simp [hPQ]
          have hdecomp : collapseLC (flat (skipChar st)) =
              (P ++ (collapseLC (flat Q)).1, (collapseLC (flat Q)).2) := by
            rw [← hP1, collapseLC_bsfree_append _ _ hP3]
          rw [hread]
          dsimp only
          refine ⟨hP2, ?_, 0, by simp, ?_, ?_⟩
          · have := congrArg List.length hP1
            rw [hflat]
            simp only [List.length_append] at this
            simp only [List.length_cons]
            omega
          · rw [hflat, hflat1, collapseLC_bs_other c2 _ hlf hcr, ← hflat1,
              hdecomp]
            simp
          · rw [hflat, hflat1, collapseLC_bs_other c2 _ hlf hcr, ← hflat1,
              hdecomp]
            omega
  · have hcne : ¬ curChar st = some '\\' := by
      rw [hc]; simp [hcb]
    obtain ⟨hP1, hP2, hP3, hP4⟩ := readLoop_spec
      ((flat st).length + st.length + 2) st 0 maxSize maxSize hne
    have hPne : (readLoop ((flat st).length + st.length + 2) st 0 maxSize
        maxSize).1 ≠ [] := by
      apply hP4 (by omega) (by omega) hm c _ hcb
      rw [← curChar_flat st hne, hc]
    rcases hPQ : readLoop ((flat st).length + st.length + 2) st 0 maxSize
        maxSize with ⟨P, Q⟩
    rw [hPQ] at hP1 hP2 hP3 hPne
    simp only at hP1 hP2 hP3 hPne
    have hread : read st maxSize line = ⟨P, Q, line⟩ := by
      simp only [read, if_pos hcondA, if_neg hcne]
      simp [hPQ]
    have hdecomp : collapseLC (flat st) =
        (P ++ (collapseLC (flat Q)).1, (collapseLC (flat Q)).2) := by
      rw [← hP1, collapseLC_bsfree_append _ _ hP3]
    rw [hread]
    dsimp only
    refine ⟨hP2, ?_, 0, by simp, ?_, ?_⟩
    · have := congrArg List.length hP1
      simp only [List.length_append] at this
      have hPlen : 1 ≤ P.length := by
        cases hq : P with
        | nil => exact absurd hq hPne
        | cons a r => simp
      omega
    · rw [hdecomp]
    · rw [hdecomp]
      omega

/-- A whole call sequence of `Input::read` delivers exactly the
continuation-collapsed stream and advances the line counter by the number of
removed continuations, as long as the counter never reaches `INT_MAX`. -/
theorem readSeq_spec (ms : List Nat) :
    ∀ (st : InputState) (line : Int), allNonempty st →
    (∀ x ∈ ms, 1 ≤ x) → (flat st).length ≤ ms.length →
    line + ((collapseLC (flat st)).2 : Int) ≤ INT_MAX →
    readSeq ms st line =
      ((collapseLC (flat st)).1, line + ((collapseLC (flat st)).2 : Int)) := by
  induction ms with
  | nil =>
    intro st line hne _ hlen _
    have hf : flat st = [] := by
      cases hq : flat st with
      | nil => rfl
      | cons a r =>
        rw [hq] at hlen
        simp at hlen
    have hst : st = [] := by
      cases st with
      | nil => rfl
      | cons s rest =>
        have hs : s ≠ [] := hne s (by simp)
        cases s with
        | nil => exact absurd rfl hs
        | cons a s' => simp [flat] at hf
    subst hst
    simp [readSeq, flat, collapseLC_nil]
  | cons m ms ih =>
    intro st line hne hms hlen hline
    by_cases hst : st = []
    · subst hst
      simp [readSeq, flat, collapseLC_nil]
    · have hm : 1 ≤ m := hms m (by simp)
      obtain ⟨hne', hdec, k, hlineEq, hout, hcnt⟩ :=
        read_step st m line hne hst hm hline
      have hlen' : (flat (read st m line).state).length ≤ ms.length := by
        have h2 := hlen
        simp only [List.length_cons] at h2
        omega
      have hline2 := hline
      rw [hcnt] at hline2
      push_cast at hline2
      have hline' : (read st m line).line +
          ((collapseLC (flat (read st m line).state)).2 : Int) ≤ INT_MAX := by
        rw [hlineEq]
        omega
      have hq := ih (read st m line).state (read st m line).line hne'
        (fun x hx => hms x (by simp [hx])) hlen' hline'
      simp only [readSeq, if_neg hst]
      rw [hq]
      refine Prod.ext ?_ ?_
      · simp only
        rw [hout]
      · simp only
        rw [hlineEq, hcnt]
        push_cast
        ring

end PPInput

namespace PPInput

/-- **C2.** Each backslash immediately followed by LF, CR LF, or lone CR is
removed from the stream that a sequence of `Input::read` calls returns, and
the logical line number grows by exactly one per removed continuation
(`readSeq` returns the stream and final line number predicted by the
spec-side `collapseLC`); and when the line counter already equals `INT_MAX`
and the current position starts a line continuation, `read` returns zero
bytes — reporting EOF — and leaves the line counter at `INT_MAX`. -/
theorem c2_line_continuations (ms : List Nat) (st : InputState) (line : Int)
    (ovSt : InputState) (m : Nat)
    (hne : allNonempty st) (hms : ∀ x ∈ ms, 1 ≤ x)
    (hlen : (flat st).length ≤ ms.length)
    (hline : line + ((collapseLC (flat st)).2 : Int) ≤ INT_MAX)
    (hm : 1 ≤ m) (hov : curChar ovSt = some '\\')
    (hov2 : curChar (skipChar ovSt) = some '\n' ∨
      curChar (skipChar ovSt) = some '\r') :
    readSeq ms st line =
      ((collapseLC (flat st)).1, line + ((collapseLC (flat st)).2 : Int)) ∧
    (read ovSt m INT_MAX).out = [] ∧
    (read ovSt m INT_MAX).line = INT_MAX := by
  refine ⟨readSeq_spec ms st line hne hms hlen hline, ?_⟩
  have hovne : ovSt ≠ [] := by
    intro h
    rw [h] at hov
    simp [curChar] at hov
  have hcond : (ovSt ≠ [] ∧ 0 < m) := ⟨hovne, by omega⟩
  rcases hov2 with h2 | h2
  · constructor
    · simp [read, if_pos hcond, hov, h2]
    · simp [read, if_pos hcond, hov, h2]
  · constructor
    · simp [read, if_pos hcond, hov, h2]
    · simp [read, if_pos hcond, hov, h2]

/-- Concrete run: three source strings containing a `\ LF`, a `\ CR LF` and a
`\ CR` continuation collapse to `abcde` with the line counter advanced by 3;
a read at `INT_MAX` facing a continuation returns zero bytes. -/
theorem c2_witness :
    readSeq [12, 12, 12, 12, 12, 12, 12, 12, 12, 12, 12, 12]
        [['a', '\\', '\n', 'b'], ['c', '\\', '\r', '\n', 'd'],
          ['\\', '\r', 'e']] 5 =
      (['a', 'b', 'c', 'd', 'e'], 8) ∧
    (read [['\\', '\n', 'x']] 10 INT_MAX).out = [] ∧
    (read [['\\', '\n', 'x']] 10 INT_MAX).line = INT_MAX := by
  have h := c2_line_continuations
    [12, 12, 12, 12, 12, 12, 12, 12, 12, 12, 12, 12]
    [['a', '\\', '\n', 'b'], ['c', '\\', '\r', '\n', 'd'], ['\\', '\r', 'e']]
    5 [['\\', '\n', 'x']] 10
    (by simp [allNonempty]) (by decide) (by decide) (by decide) (by decide)
    rfl (Or.inl rfl)
  refine ⟨?_, h.2.1, h.2.2⟩
  rw [h.1]
  rfl

end PPInput
